import Mathlib

/-!
Two-pass parallel reduction of `thrust/detail/device/cuda/reduce_n.inl`

The development embeds the CUDA reduction driver `reduce_n` and its kernel
`reduce_n_kernel` as executable Lean functions and proves properties of them.

Modelling conventions.

* Device memory regions (`input`, the temporary buffer `temp`, the shared
  scratch array `sdata`) are lists; every read and write is bounds checked and
  an out-of-range access makes the computation return `none`.
* The `while` loop of the kernel is run with a fuel of `n + 1` iterations.  With
  a positive stride the loop condition fails after at most `n` iterations, so
  the fuel is exhausted (`none`) only for a zero stride, where the source loop
  does not terminate either.
* The kernel computes `n`, `grid_size`, the index `i` and the difference of
  line 92 in `unsigned int`.  The definitions whose names end in `32` carry
  this arithmetic: `n` is taken modulo `2^32` at each launch (lines 127 and
  130) and sums, products and differences of indices wrap modulo `2^32`.  The
  definitions without the suffix perform the same steps with exact integers.
  The two agree when `n + blockDim * gridDim <= 2^32` (`reduce_n32_eq`,
  `thread_indices32_eq`); what is stated for sizes beyond that bound is stated
  on the `32` definitions.
* A block is executed thread by thread up to each `__syncthreads()` barrier:
  the private sums are computed from the input, then published to `sdata`, then
  the block reduction runs, then thread 0 emits.  The kernel reads its input
  from the memory as it was at launch; the only launch whose output aliases its
  input (pass 2) has a single block whose reads all precede the barrier of
  line 89 and whose only write follows it.
* Values that the source leaves indeterminate (the local `sum` of a thread that
  owns no element, the fresh contents of the temporary buffer) are supplied by
  a `Garbage` record, so that no result can silently depend on a default.
-/

namespace Thrust

/-- Collects a list of fallible results; `none` as soon as one of them faulted. -/
def allSome {β : Type} : List (Option β) → Option (List β)
  | [] => some []
  | none :: _ => none
  | some x :: os => (allSome os).map (x :: ·)

/-- Indeterminate values of one call of `reduce_n`: `sum1 b t` and `sum2 b t`
are what the uninitialised local `sum` (line 72) of thread `t` of block `b`
holds in the first and in the second kernel launch, `temp k` is what slot `k`
of the freshly allocated buffer (line 121) holds. -/
structure Garbage (α : Type) where
  sum1 : Nat → Nat → α
  sum2 : Nat → Nat → α
  temp : Nat → α

/-- Lines 82-86, `while (i < n) { sum = binary_op(sum, input[i]); i += grid_size; }`,
run with the given fuel.  The index is an exact integer here; `accumulate32`
is the same loop in `unsigned int` arithmetic. -/
def accumulate {α : Type} (binary_op : α → α → α) (input : List α) (n grid_size : Nat) :
    Nat → Nat → α → Option α
  | 0, _, _ => none
  | fuel + 1, i, sum =>
    if i < n then
      match input[i]? with
      | some x => accumulate binary_op input n grid_size fuel (i + grid_size) (binary_op sum x)
      | none => none
    else some sum

/-- Lines 68-86 for one thread: the private `sum` the thread holds when it
reaches line 89.  `uninit` is the indeterminate initial content of `sum`.
Indices are exact integers here; `thread_sum32` is the same code in `unsigned
int` arithmetic. -/
def thread_sum {α : Type} (binary_op : α → α → α) (input : List α)
    (n blockDim gridDim blockIdx threadIdx : Nat) (uninit : α) : Option α :=
  let grid_size := blockDim * gridDim
  let i := blockDim * blockIdx + threadIdx
  if i < n then
    match input[i]? with
    | some x => accumulate binary_op input n grid_size (n + 1) (i + grid_size) x
    | none => none
  else accumulate binary_op input n grid_size (n + 1) i uninit

/-- The loop of lines 82-86 with the data left out: the indices at which the
loop dereferences `input`, appended to `seen`.  The index is an exact integer
here; `visit_loop32` is the same loop in `unsigned int` arithmetic. -/
def visit_loop (n grid_size : Nat) : Nat → Nat → List Nat → Option (List Nat)
  | 0, _, _ => none
  | fuel + 1, i, seen =>
    if i < n then visit_loop n grid_size fuel (i + grid_size) (seen ++ [i])
    else some seen

/-- Lines 68-86 with the data left out: the indices at which one thread
dereferences `input`, in the order of the reads.  Indices are exact integers
here; `thread_indices32` is the same walk in `unsigned int` arithmetic. -/
def thread_indices (n blockDim gridDim blockIdx threadIdx : Nat) : Option (List Nat) :=
  let grid_size := blockDim * gridDim
  let i := blockDim * blockIdx + threadIdx
  if i < n then visit_loop n grid_size (n + 1) (i + grid_size) [i]
  else visit_loop n grid_size (n + 1) i []

namespace block

/-- Modelled from the spec: one round of the block-level tree reduction
`block::reduce_n` (thrust/detail/device/cuda/block/reduce.h, not among the
sources).  Section 4.3 step 3: with `k` active slots and `half` the rounded-up
half of `k`, a thread at index `t < half` combines its scratch slot with the
slot at `t + half` and stores the result back at `t`; only the first `k` slots
are considered, so a thread whose partner slot `t + half` is not among them
leaves its slot as it is.  All threads read before the barrier ending the
round, so the new array is computed from the old one. -/
def reduce_round {α : Type} (binary_op : α → α → α) (sdata : List α) (k : Nat) :
    Option (List α) :=
  let half := (k + 1) / 2
  allSome ((List.range sdata.length).map fun t =>
    if t < half ∧ t + half < k then
      match sdata[t]?, sdata[t + half]? with
      | some a, some b => some (binary_op a b)
      | _, _ => none
    else sdata[t]?)

/-- Modelled from the spec: the rounds of `block::reduce_n`, repeated while
more than one slot is active; the active count halves (rounded up) each round. -/
def reduce_rounds {α : Type} (binary_op : α → α → α) : Nat → List α → Nat → Option (List α)
  | 0, _, _ => none
  | fuel + 1, sdata, k =>
    if 1 < k then
      match reduce_round binary_op sdata k with
      | some s => reduce_rounds binary_op fuel s ((k + 1) / 2)
      | none => none
    else some sdata

/-- Modelled from the spec: `block::reduce_n(sdata, n, binary_op)` of
thrust/detail/device/cuda/block/reduce.h, which is not among the sources.
Section 4.3 step 3 and the glossary: a synchronized halving algorithm over the
first `n` scratch slots, after whose final round slot 0 holds the result.  The
active count strictly decreases while it exceeds one, so `n + 1` units of fuel
are never used up. -/
def reduce_n {α : Type} (binary_op : α → α → α) (sdata : List α) (n : Nat) : Option (List α) :=
  reduce_rounds binary_op (n + 1) sdata n

end block

/-- Lines 63-96 for one block: the value thread 0 stores to
`block_results[blockIdx.x]`.  `uninit t` is the indeterminate initial `sum` of
thread `t`; the scratch array has `blockDim` slots (`smem_size`, line 116).
The difference `n - blockDim * blockIdx` of line 92 is the truncated one of the
natural numbers; it is exact whenever `blockDim * blockIdx <= n`. -/
def block_result {α : Type} (binary_op : α → α → α) (input : List α)
    (n blockDim gridDim blockIdx : Nat) (uninit : Nat → α) : Option α :=
  match allSome ((List.range blockDim).map fun t =>
      thread_sum binary_op input n blockDim gridDim blockIdx t (uninit t)) with
  | none => none
  | some sdata =>
    match block.reduce_n binary_op sdata (min (n - blockDim * blockIdx) blockDim) with
    | none => none
    | some s => s[0]?

/-- Line 96: the slot of device memory that block `blockIdx` stores to, when
`block_results` points at slot `base` of the memory. -/
def result_slot (base blockIdx : Nat) : Nat := base + blockIdx

/-- Line 96 for all blocks: `block_results[b] = results[b]`, each store bounds
checked. -/
def store_results {α : Type} (base : Nat) : Nat → List α → List α → Option (List α)
  | _, [], mem => some mem
  | b, r :: rs, mem =>
    if result_slot base b < mem.length then
      store_results base (b + 1) rs (mem.set (result_slot base b) r)
    else none

/-- One launch `reduce_n_kernel<<<gridDim, blockDim, smem_size>>>(input, n,
block_results, binary_op)` (lines 58-98): `mem` is the memory `block_results`
points into, at slot `base`; the result is that memory after the launch. -/
def reduce_n_kernel {α : Type} (binary_op : α → α → α) (gridDim blockDim : Nat)
    (input : List α) (n : Nat) (mem : List α) (base : Nat) (uninit : Nat → Nat → α) :
    Option (List α) :=
  match allSome ((List.range gridDim).map fun b =>
      block_result binary_op input n blockDim gridDim b (uninit b)) with
  | none => none
  | some results => store_results base 0 results mem

/-- Line 118: `std::min(max_blocks, (n + block_size - 1) / block_size)`. -/
def num_blocks (n block_size max_blocks : Nat) : Nat :=
  min max_blocks ((n + block_size - 1) / block_size)

/-- Lines 120-124: the fresh buffer of `num_blocks + 1` slots with `init`
stored at slot 0. -/
def fresh_temp {α : Type} (g : Garbage α) (num_blocks : Nat) (init : α) : List α :=
  ((List.range (num_blocks + 1)).map g.temp).set 0 init

/-- Lines 114-127: the temporary buffer after the first kernel launch, whose
output base is `&temp[1]`.  The kernel is given `n` as it is and computes with
exact integers; `pass1_32` converts `n` to `unsigned int`. -/
def pass1 {α : Type} (binary_op : α → α → α) (g : Garbage α) (block_size max_blocks : Nat)
    (first : List α) (n : Nat) (init : α) : Option (List α) :=
  let nb := num_blocks n block_size max_blocks
  reduce_n_kernel binary_op nb block_size first n (fresh_temp g nb init) 1 g.sum1

/-- Line 130: the buffer after the second kernel launch, one block run in
place over the `nb + 1` slots of `temp`. -/
def pass2 {α : Type} (binary_op : α → α → α) (g : Garbage α) (block_size nb : Nat)
    (temp : List α) : Option (List α) :=
  reduce_n_kernel binary_op 1 block_size temp (nb + 1) temp 0 g.sum2

/-- Device actions of the driver, in the order they are issued. -/
inductive Event where
  | launch_params (block_size max_blocks num_blocks : Nat)
  | allocate (slots : Nat)
  | kernel (gridDim blockDim n : Nat)
  deriving DecidableEq, Repr

/-- Lines 105-133, `reduce_n(first, n, init, binary_op)`.  `block_size` and
`max_blocks` are what the two queries of thrust/experimental/arch.h (not among
the sources) return at lines 115 and 117.  The result is the returned value
together with the device actions performed; `none` is a fault (division by a
zero `block_size` at line 118, an out-of-range access, a loop that does not
end).  The kernels compute with exact integers here; `reduce_n32` is the same
driver with the kernel's `unsigned int` arithmetic. -/
def reduce_n {α : Type} (binary_op : α → α → α) (g : Garbage α) (block_size max_blocks : Nat)
    (first : List α) (n : Nat) (init : α) : Option (α × List Event) :=
  if n = 0 then some (init, [])
  else if block_size = 0 then none
  else
    let nb := num_blocks n block_size max_blocks
    match pass1 binary_op g block_size max_blocks first n init with
    | none => none
    | some temp1 =>
      match pass2 binary_op g block_size nb temp1 with
      | none => none
      | some temp2 =>
        match temp2[0]? with
        | none => none
        | some r =>
          some (r, [Event.launch_params block_size max_blocks nb, Event.allocate (nb + 1),
                    Event.kernel nb block_size n, Event.kernel 1 block_size (nb + 1)])

/-- The head-seeded left fold of a list: `none` on the empty list and
`some (((x0 op x1) op x2) ...)` otherwise.  This is the specification-side
meaning of "the combination under the operator" of a collection of values. -/
def combine {α : Type} (binary_op : α → α → α) : List α → Option α
  | [] => none
  | x :: xs => some (xs.foldl binary_op x)

/-- Carrier for reasoning about combinations: optional values under the
operator, where `none` stands for "nothing combined yet". -/
def Lift {α : Type} (_binary_op : α → α → α) : Type := Option α

/-- The operator extended to optional values, with `none` as the unit. -/
def Lift.mul {α : Type} (binary_op : α → α → α) : Lift binary_op → Lift binary_op → Lift binary_op
  | none, y => y
  | some x, none => some x
  | some x, some y => some (binary_op x y)

/-- An optional value seen as an element of the carrier. -/
def Lift.of {α : Type} (binary_op : α → α → α) (o : Option α) : Lift binary_op := o

instance Lift.instCommMonoid {α : Type} (binary_op : α → α → α)
    [ha : Std.Associative binary_op] [hc : Std.Commutative binary_op] :
    CommMonoid (Lift binary_op) where
  mul := Lift.mul binary_op
  one := none
  mul_assoc a b c := by
    cases a <;> cases b <;> cases c <;> simp [HMul.hMul, Lift.mul]
    exact congrArg some (ha.assoc _ _ _)
  one_mul a := by cases a <;> rfl
  mul_one a := by cases a <;> rfl
  mul_comm a b := by
    cases a <;> cases b <;> simp [HMul.hMul, Lift.mul]
    exact congrArg some (hc.comm _ _)

/-- Line 69: the index `blockDim.x * blockIdx.x + threadIdx.x` at which a
thread starts. -/
def thread_start (blockDim blockIdx threadIdx : Nat) : Nat :=
  blockDim * blockIdx + threadIdx

/-- Line 92: the active slot count `min(n - blockDim.x * blockIdx.x,
blockDim.x)` that the kernel passes to the block reduction (the expression
used in `block_result`). -/
def active_count (n blockDim blockIdx : Nat) : Nat :=
  min (n - blockDim * blockIdx) blockDim

/-- The number of values of `unsigned int`, the type of `n`, `grid_size` and
`i` in the kernel (lines 59, 68, 69). -/
def uint_modulus : Nat := 2 ^ 32

/-- The loop of lines 82-86 with the data left out and `i += grid_size`
performed in `unsigned int` arithmetic, that is modulo `uint_modulus`. -/
def visit_loop32 (n grid_size : Nat) : Nat → Nat → List Nat → Option (List Nat)
  | 0, _, _ => none
  | fuel + 1, i, seen =>
    if i < n then
      visit_loop32 n grid_size fuel ((i + grid_size) % uint_modulus) (seen ++ [i])
    else some seen

/-- Lines 68-86 with the data left out and every index computation performed
in `unsigned int` arithmetic: the indices at which one thread dereferences
`input`, in the order of the reads. -/
def thread_indices32 (n blockDim gridDim blockIdx threadIdx : Nat) : Option (List Nat) :=
  let grid_size := (blockDim * gridDim) % uint_modulus
  let i := (blockDim * blockIdx + threadIdx) % uint_modulus
  if i < n then visit_loop32 n grid_size (n + 1) ((i + grid_size) % uint_modulus) [i]
  else visit_loop32 n grid_size (n + 1) i []

/-- Line 69 in `unsigned int` arithmetic: the index at which a thread starts. -/
def thread_start32 (blockDim blockIdx threadIdx : Nat) : Nat :=
  (blockDim * blockIdx + threadIdx) % uint_modulus

/-- Line 92 in `unsigned int` arithmetic: `min(n - blockDim.x * blockIdx.x,
blockDim.x)`, where the product and the difference wrap modulo `uint_modulus`.
`n` is the `unsigned int` the kernel received. -/
def active_count32 (n blockDim blockIdx : Nat) : Nat :=
  min ((n + uint_modulus - (blockDim * blockIdx) % uint_modulus) % uint_modulus) blockDim

/-- Lines 82-86 with `i += grid_size` performed in `unsigned int` arithmetic.
A run that ends never tests the same `i < n` twice, so it makes at most `n`
iterations; callers pass `n + 1` units of fuel and `none` then stands for a
loop that does not end (or for an out-of-range read). -/
def accumulate32 {α : Type} (binary_op : α → α → α) (input : List α) (n grid_size : Nat) :
    Nat → Nat → α → Option α
  | 0, _, _ => none
  | fuel + 1, i, sum =>
    if i < n then
      match input[i]? with
      | some x =>
        accumulate32 binary_op input n grid_size fuel ((i + grid_size) % uint_modulus)
          (binary_op sum x)
      | none => none
    else some sum

/-- Lines 68-86 for one thread with `grid_size` and `i` computed in `unsigned
int` arithmetic: the private `sum` the thread holds when it reaches line 89.
`n` is the `unsigned int` the kernel received, `uninit` the indeterminate
initial content of `sum`. -/
def thread_sum32 {α : Type} (binary_op : α → α → α) (input : List α)
    (n blockDim gridDim blockIdx threadIdx : Nat) (uninit : α) : Option α :=
  let grid_size := (blockDim * gridDim) % uint_modulus
  let i := (blockDim * blockIdx + threadIdx) % uint_modulus
  if i < n then
    match input[i]? with
    | some x =>
      accumulate32 binary_op input n grid_size (n + 1) ((i + grid_size) % uint_modulus) x
    | none => none
  else accumulate32 binary_op input n grid_size (n + 1) i uninit

/-- Lines 63-96 for one block with the kernel's `unsigned int` arithmetic: the
value thread 0 stores to `block_results[blockIdx.x]`. -/
def block_result32 {α : Type} (binary_op : α → α → α) (input : List α)
    (n blockDim gridDim blockIdx : Nat) (uninit : Nat → α) : Option α :=
  match allSome ((List.range blockDim).map fun t =>
      thread_sum32 binary_op input n blockDim gridDim blockIdx t (uninit t)) with
  | none => none
  | some sdata =>
    match block.reduce_n binary_op sdata (active_count32 n blockDim blockIdx) with
    | none => none
    | some s => s[0]?

/-- One launch of `reduce_n_kernel` (lines 58-98) with the kernel's `unsigned
int` arithmetic; `n` is the `unsigned int` the launch received. -/
def reduce_n_kernel32 {α : Type} (binary_op : α → α → α) (gridDim blockDim : Nat)
    (input : List α) (n : Nat) (mem : List α) (base : Nat) (uninit : Nat → Nat → α) :
    Option (List α) :=
  match allSome ((List.range gridDim).map fun b =>
      block_result32 binary_op input n blockDim gridDim b (uninit b)) with
  | none => none
  | some results => store_results base 0 results mem

/-- Lines 114-127 with the conversion at line 127: the `SizeType n` is passed
to the parameter `const unsigned int n` of the kernel, that is taken modulo
`uint_modulus`; `num_blocks` and the buffer size are computed in `size_t` from
the unconverted `n`.  The launch dimensions are passed as they are: they come
from the occupancy queries, which answer within the limits of the device. -/
def pass1_32 {α : Type} (binary_op : α → α → α) (g : Garbage α) (block_size max_blocks : Nat)
    (first : List α) (n : Nat) (init : α) : Option (List α) :=
  let nb := num_blocks n block_size max_blocks
  reduce_n_kernel32 binary_op nb block_size first (n % uint_modulus) (fresh_temp g nb init) 1
    g.sum1

/-- Line 130 with the conversion of `num_blocks + 1` to the parameter `const
unsigned int n` of the kernel. -/
def pass2_32 {α : Type} (binary_op : α → α → α) (g : Garbage α) (block_size nb : Nat)
    (temp : List α) : Option (List α) :=
  reduce_n_kernel32 binary_op 1 block_size temp ((nb + 1) % uint_modulus) temp 0 g.sum2

/-- Lines 105-133, `reduce_n(first, n, init, binary_op)`, with the kernel's
`unsigned int` arithmetic and the conversion of `n` at the two launches.
`block_size` and `max_blocks` are what the two queries of
thrust/experimental/arch.h (not among the sources) return at lines 115 and
117; `none` is a fault (division by a zero `block_size`, an out-of-range
access, a loop that does not end). -/
def reduce_n32 {α : Type} (binary_op : α → α → α) (g : Garbage α)
    (block_size max_blocks : Nat) (first : List α) (n : Nat) (init : α) :
    Option (α × List Event) :=
  if n = 0 then some (init, [])
  else if block_size = 0 then none
  else
    let nb := num_blocks n block_size max_blocks
    match pass1_32 binary_op g block_size max_blocks first n init with
    | none => none
    | some temp1 =>
      match pass2_32 binary_op g block_size nb temp1 with
      | none => none
      | some temp2 =>
        match temp2[0]? with
        | none => none
        | some r =>
          some (r, [Event.launch_params block_size max_blocks nb, Event.allocate (nb + 1),
                    Event.kernel nb block_size n, Event.kernel 1 block_size (nb + 1)])

open Finset

section Algebra

variable {α : Type} (op : α → α → α) [Std.Associative op] [Std.Commutative op]

theorem Lift.of_none : Lift.of op none = 1 := rfl

theorem Lift.of_some_mul (x y : α) :
    Lift.of op (some x) * Lift.of op (some y) = Lift.of op (some (op x y)) := rfl

theorem Lift.of_foldl (l : List α) (x : α) :
    Lift.of op (some (l.foldl op x)) =
      Lift.of op (some x) * (l.map fun y => Lift.of op (some y)).prod := by
  induction l generalizing x with
  | nil => simp
  | cons y ys ih => simp [ih, ← Lift.of_some_mul, mul_assoc]

theorem Lift.of_combine (l : List α) :
    Lift.of op (combine op l) = (l.map fun y => Lift.of op (some y)).prod := by
  cases l with
  | nil => simp [combine, Lift.of_none]
  | cons x xs => simp [combine, Lift.of_foldl]

end Algebra

theorem allSome_map {β γ : Type} (l : List β) (f : β → Option γ) (g : β → γ)
    (h : ∀ x ∈ l, f x = some (g x)) : allSome (l.map f) = some (l.map g) := by
  induction l with
  | nil => rfl
  | cons x xs ih =>
    have hx := h x (List.mem_cons_self _ _)
    have hxs := ih fun y hy => h y (List.mem_cons_of_mem _ hy)
    simp [allSome, hx, hxs]

theorem visit_loop_seen (n g : Nat) :
    ∀ fuel i seen, visit_loop n g fuel i seen = (visit_loop n g fuel i []).map (seen ++ ·) := by
  intro fuel
  induction fuel with
  | zero => intro i seen; simp [visit_loop]
  | succ fuel ih =>
    intro i seen
    simp only [visit_loop]
    split
    · rw [ih (i + g) (seen ++ [i]), ih (i + g) ([] ++ [i]), Option.map_map]
      congr 1
      funext l
      simp
    · simp

theorem visit_loop_spec (n g : Nat) (hg : 0 < g) :
    ∀ fuel i, n - i < fuel → ∃ l, visit_loop n g fuel i [] = some l ∧ l.Nodup ∧
      ∀ x, x ∈ l ↔ i ≤ x ∧ x < n ∧ g ∣ (x - i) := by
  intro fuel
  induction fuel with
  | zero => intro i h; omega
  | succ fuel ih =>
    intro i h
    simp only [visit_loop]
    split
    · rename_i hin
      obtain ⟨l, hl, hnd, hmem⟩ := ih (i + g) (by omega)
      refine ⟨i :: l, ?_, ?_, ?_⟩
      · rw [visit_loop_seen, hl]; simp
      · refine List.nodup_cons.mpr ⟨?_, hnd⟩
        intro hi
        have := ((hmem i).mp hi).1
        omega
      · intro x
        rw [List.mem_cons, hmem]
        constructor
        · rintro (rfl | ⟨h1, h2, h3⟩)
          · exact ⟨le_refl _, hin, by simp⟩
          · refine ⟨by omega, h2, ?_⟩
            have : x - i = (x - (i + g)) + g := by omega
            rw [this]
            exact Dvd.dvd.add h3 (dvd_refl g)
        · rintro ⟨h1, h2, h3⟩
          rcases Nat.eq_or_lt_of_le h1 with h4 | h4
          · exact Or.inl h4.symm
          · right
            have h5 : g ≤ x - i := Nat.le_of_dvd (by omega) h3
            refine ⟨by omega, h2, ?_⟩
            have : x - (i + g) = (x - i) - g := by omega
            rw [this]
            exact Nat.dvd_sub' h3 (dvd_refl g)
    · rename_i hin
      refine ⟨[], rfl, List.nodup_nil, ?_⟩
      intro x
      simp
      intro h1 h2
      omega

theorem accumulate_eq {α : Type} (op : α → α → α) [Std.Associative op] [Std.Commutative op]
    (input : List α) (n g : Nat) (hn : n ≤ input.length) :
    ∀ fuel i sum l, visit_loop n g fuel i [] = some l →
      ∃ v, accumulate op input n g fuel i sum = some v ∧
        Lift.of op (some v) =
          Lift.of op (some sum) * (l.map fun j => Lift.of op input[j]?).prod := by
  intro fuel
  induction fuel with
  | zero => intro i sum l h; simp [visit_loop] at h
  | succ fuel ih =>
    intro i sum l h
    simp only [visit_loop] at h
    simp only [accumulate]
    split at h
    · rename_i hin
      rw [visit_loop_seen] at h
      obtain ⟨l1, hl1, rfl⟩ := Option.map_eq_some'.mp h
      have hi : i < input.length := by omega
      rw [if_pos hin, List.getElem?_eq_getElem hi]
      obtain ⟨v, hv, hlift⟩ := ih (i + g) (op sum input[i]) l1 hl1
      refine ⟨v, hv, ?_⟩
      rw [hlift, ← Lift.of_some_mul]
      simp [mul_assoc, List.getElem?_eq_getElem hi]
    · rename_i hin
      rw [if_neg hin]
      cases h
      exact ⟨sum, rfl, by simp⟩

theorem prod_range_blocks {M : Type} [CommMonoid M] (H : Nat → M) (B G : Nat) :
    ∏ b ∈ range G, ∏ t ∈ range B, H (B * b + t) = ∏ j ∈ range (B * G), H j := by
  induction G with
  | zero => simp
  | succ G ih => rw [prod_range_succ, ih, Nat.mul_succ, prod_range_add]

theorem prod_partition {M : Type} [CommMonoid M] (f : Nat → M) (n B G : Nat)
    (hB : 0 < B) (hG : 0 < G) :
    ∏ b ∈ range G, ∏ t ∈ range B, ∏ x ∈ (range n).filter (fun x => x % (B * G) = B * b + t), f x
      = ∏ x ∈ range n, f x := by
  rw [prod_range_blocks (fun j => ∏ x ∈ (range n).filter (fun x => x % (B * G) = j), f x)]
  apply prod_fiberwise_of_maps_to
  intro i _
  exact mem_range.mpr (Nat.mod_lt _ (Nat.mul_pos hB hG))

theorem stride_mem_iff (g i x : Nat) (hi : i < g) :
    (i ≤ x ∧ g ∣ (x - i)) ↔ x % g = i := by
  constructor
  · rintro ⟨h1, k, hk⟩
    have : x = i + g * k := by omega
    rw [this, Nat.add_mul_mod_self_left, Nat.mod_eq_of_lt hi]
  · intro h
    have h2 := Nat.mod_add_div x g
    refine ⟨by rw [← h]; exact Nat.mod_le _ _, x / g, ?_⟩
    omega

theorem thread_start_lt (B G b t : Nat) (hb : b < G) (ht : t < B) : B * b + t < B * G := by
  calc B * b + t < B * b + B := by omega
    _ = B * (b + 1) := by ring
    _ ≤ B * G := Nat.mul_le_mul_left _ hb

theorem thread_indices_spec (n B G b t : Nat) (hB : 0 < B) (hG : 0 < G) :
    ∃ l, thread_indices n B G b t = some l ∧ l.Nodup ∧
      ∀ x, x ∈ l ↔ B * b + t ≤ x ∧ x < n ∧ (B * G) ∣ (x - (B * b + t)) := by
  have hg : 0 < B * G := Nat.mul_pos hB hG
  have key : thread_indices n B G b t = visit_loop n (B * G) (n + 2) (B * b + t) [] := by
    simp only [thread_indices, visit_loop]
    split <;> simp
  rw [key]
  exact visit_loop_spec n (B * G) hg (n + 2) (B * b + t) (by omega)

theorem thread_indices_toFinset (n B G b t : Nat) (hb : b < G) (ht : t < B) (l : List Nat)
    (hl : thread_indices n B G b t = some l) :
    l.Nodup ∧ l.toFinset = (Finset.range n).filter (fun x => x % (B * G) = B * b + t) := by
  obtain ⟨l1, hl1, hnd, hmem⟩ := thread_indices_spec n B G b t (by omega) (by omega)
  rw [hl] at hl1
  cases hl1
  refine ⟨hnd, ?_⟩
  ext x
  rw [List.mem_toFinset, hmem, Finset.mem_filter, Finset.mem_range,
    ← stride_mem_iff (B * G) (B * b + t) x (thread_start_lt B G b t hb ht)]
  tauto

theorem thread_sum_spec {α : Type} (op : α → α → α) [Std.Associative op] [Std.Commutative op]
    (input : List α) (n B G b t : Nat) (u : α) (hn : n ≤ input.length)
    (hB : 0 < B) (hG : 0 < G) :
    ∃ l v, thread_indices n B G b t = some l ∧
      thread_sum op input n B G b t u = some v ∧
      (B * b + t < n → Lift.of op (some v) = (l.map fun j => Lift.of op input[j]?).prod) ∧
      (n ≤ B * b + t → v = u ∧ l = []) := by
  have hg : 0 < B * G := Nat.mul_pos hB hG
  by_cases h : B * b + t < n
  · obtain ⟨l1, hl1, -, -⟩ := visit_loop_spec n (B * G) hg (n + 1) (B * b + t + B * G) (by omega)
    have hi : B * b + t < input.length := by omega
    obtain ⟨v, hv, hlift⟩ :=
      accumulate_eq op input n (B * G) hn (n + 1) (B * b + t + B * G) input[B * b + t] l1 hl1
    refine ⟨(B * b + t) :: l1, v, ?_, ?_, ?_, ?_⟩
    · simp only [thread_indices, if_pos h]
      rw [visit_loop_seen, hl1]; simp
    · simp only [thread_sum, if_pos h, List.getElem?_eq_getElem hi]
      exact hv
    · intro _
      rw [hlift]
      simp [List.getElem?_eq_getElem hi]
    · intro h2; omega
  · refine ⟨[], u, ?_, ?_, ?_, ?_⟩
    · simp [thread_indices, visit_loop, h]
    · simp [thread_sum, accumulate, h]
    · intro h2; omega
    · intro _; exact ⟨rfl, rfl⟩

theorem allSome_eq_some {β : Type} (l : List (Option β)) (h : ∀ o ∈ l, o ≠ none) :
    ∃ r, allSome l = some r ∧ r.map some = l := by
  induction l with
  | nil => exact ⟨[], rfl, rfl⟩
  | cons o os ih =>
    obtain ⟨r, hr, hmap⟩ := ih fun x hx => h x (List.mem_cons_of_mem _ hx)
    cases o with
    | none => exact absurd rfl (h none (List.mem_cons_self _ _))
    | some x => exact ⟨x :: r, by simp [allSome, hr], by simp [hmap]⟩

theorem allSome_range {β : Type} (m : Nat) (f : Nat → Option β) (h : ∀ t, t < m → f t ≠ none) :
    ∃ r, allSome ((List.range m).map f) = some r ∧ r.length = m ∧ ∀ t, t < m → r[t]? = f t := by
  obtain ⟨r, hr, hmap⟩ := allSome_eq_some ((List.range m).map f) (by
    intro o ho
    obtain ⟨t, ht, rfl⟩ := List.mem_map.mp ho
    exact h t (List.mem_range.mp ht))
  have hlen : r.length = m := by
    have := congrArg List.length hmap
    simpa using this
  refine ⟨r, hr, hlen, ?_⟩
  intro t ht
  have h1 := congrArg (fun l => l[t]?) hmap
  simp only [List.getElem?_map, List.getElem?_range ht, Option.map_some'] at h1
  have h2 : t < r.length := by omega
  rw [List.getElem?_eq_getElem h2] at h1 ⊢
  simpa using h1

section Block

variable {α : Type} (op : α → α → α) [Std.Associative op] [Std.Commutative op]

theorem prod_take (s : List α) (k : Nat) :
    ∏ t ∈ range k, Lift.of op s[t]? = ((s.take k).map fun y => Lift.of op (some y)).prod := by
  induction s generalizing k with
  | nil => simp [Lift.of_none]
  | cons x xs ih =>
    cases k with
    | zero => simp
    | succ k => rw [prod_range_succ']; simp [ih k, mul_comm]

theorem reduce_round_spec (s : List α) (k : Nat) (hk : k ≤ s.length) :
    ∃ r, block.reduce_round op s k = some r ∧ r.length = s.length ∧
      ∏ t ∈ range ((k + 1) / 2), Lift.of op r[t]? = ∏ t ∈ range k, Lift.of op s[t]? := by
  obtain ⟨r, hr, hlen, hget⟩ := allSome_range s.length (fun t =>
    if t < (k + 1) / 2 ∧ t + (k + 1) / 2 < k then
      match s[t]?, s[t + (k + 1) / 2]? with
      | some a, some b => some (op a b)
      | _, _ => none
    else s[t]?) (by
      intro t ht
      dsimp only
      split
      · rename_i hc
        rw [List.getElem?_eq_getElem ht, List.getElem?_eq_getElem (by omega)]
        simp
      · rw [List.getElem?_eq_getElem ht]; simp)
  refine ⟨r, hr, hlen, ?_⟩
  have hsplit : k = (k + 1) / 2 + (k - (k + 1) / 2) := by omega
  have hterm : ∀ t ∈ range ((k + 1) / 2), Lift.of op r[t]? =
      Lift.of op s[t]? * (if t + (k + 1) / 2 < k then Lift.of op s[(k + 1) / 2 + t]? else 1) := by
    intro t ht
    have ht1 : t < (k + 1) / 2 := mem_range.mp ht
    have ht2 : t < s.length := by omega
    rw [hget t ht2]
    by_cases hc : t + (k + 1) / 2 < k
    · rw [if_pos ⟨ht1, hc⟩, if_pos hc, List.getElem?_eq_getElem ht2,
        List.getElem?_eq_getElem (show t + (k + 1) / 2 < s.length by omega), Nat.add_comm ((k + 1) / 2) t,
        List.getElem?_eq_getElem (show t + (k + 1) / 2 < s.length by omega)]
      rfl
    · rw [if_neg (fun h => hc h.2), if_neg hc, mul_one]
  rw [prod_congr rfl hterm, prod_mul_distrib]
  conv_rhs => rw [hsplit, prod_range_add]
  congr 1
  rw [← prod_filter]
  apply prod_congr _ (fun _ _ => rfl)
  ext t
  simp only [mem_filter, mem_range]
  omega

theorem reduce_rounds_spec :
    ∀ (fuel : Nat) (s : List α) (k : Nat), 1 ≤ k → k ≤ s.length → k ≤ fuel →
      ∃ r, block.reduce_rounds op fuel s k = some r ∧ r.length = s.length ∧
        Lift.of op r[0]? = ∏ t ∈ range k, Lift.of op s[t]? := by
  intro fuel
  induction fuel with
  | zero => intro s k h1 _ h3; omega
  | succ fuel ih =>
    intro s k h1 h2 h3
    simp only [block.reduce_rounds]
    by_cases hk : 1 < k
    · rw [if_pos hk]
      obtain ⟨r1, hr1, hlen1, hprod1⟩ := reduce_round_spec op s k h2
      rw [hr1]
      obtain ⟨r, hr, hlen, hprod⟩ := ih r1 ((k + 1) / 2) (by omega) (by omega) (by omega)
      exact ⟨r, hr, by omega, by rw [hprod, hprod1]⟩
    · rw [if_neg hk]
      have : k = 1 := by omega
      subst this
      exact ⟨s, rfl, rfl, by simp⟩

theorem block_reduce_n_spec (s : List α) (k : Nat) (h1 : 1 ≤ k) (h2 : k ≤ s.length) :
    ∃ r, block.reduce_n op s k = some r ∧ r.length = s.length ∧
      Lift.of op r[0]? = ∏ t ∈ Finset.range k, Lift.of op s[t]? :=
  reduce_rounds_spec op (k + 1) s k h1 h2 (by omega)

end Block

theorem store_results_spec {α : Type} (base : Nat) :
    ∀ (rs : List α) (b : Nat) (mem : List α), base + b + rs.length ≤ mem.length →
      ∃ r, store_results base b rs mem = some r ∧ r.length = mem.length ∧
        (∀ j, j < base + b ∨ base + b + rs.length ≤ j → r[j]? = mem[j]?) ∧
        (∀ i, i < rs.length → r[base + b + i]? = rs[i]?) := by
  intro rs
  induction rs with
  | nil =>
    intro b mem _
    exact ⟨mem, rfl, rfl, fun _ _ => rfl, fun i hi => absurd hi (Nat.not_lt_zero i)⟩
  | cons x xs ih =>
    intro b mem h
    simp only [List.length_cons] at h
    obtain ⟨r, hr, hlen, hout, hin⟩ := ih (b + 1) (mem.set (base + b) x) (by
      rw [List.length_set]; omega)
    rw [List.length_set] at hlen
    refine ⟨r, ?_, hlen, ?_, ?_⟩
    · simp only [store_results, result_slot]
      rw [if_pos (by omega)]
      exact hr
    · intro j hj
      simp only [List.length_cons] at hj
      rw [hout j (by omega), List.getElem?_set_ne (by omega)]
    · intro i hi
      cases i with
      | zero =>
        rw [Nat.add_zero, hout (base + b) (by omega), List.getElem?_set_self (by omega)]
        simp
      | succ i =>
        have := hin i (by simpa using hi)
        rw [show base + b + (i + 1) = base + (b + 1) + i by omega, this]
        simp

section Kernel

variable {α : Type} (op : α → α → α) [Std.Associative op] [Std.Commutative op]

/-- A thread whose starting index is not below `n` owns no input element. -/
theorem thread_prod_of_out (input : List α) (n B G b t : Nat) (h : n ≤ B * b + t) :
    ∏ x ∈ (Finset.range n).filter (fun x => x % (B * G) = B * b + t), Lift.of op input[x]? = 1 := by
  have : (Finset.range n).filter (fun x => x % (B * G) = B * b + t) = ∅ := by
    apply Finset.filter_eq_empty_iff.mpr
    intro x hx hmod
    have h1 := Finset.mem_range.mp hx
    have h2 := Nat.mod_le x (B * G)
    omega
  rw [this, Finset.prod_empty]

theorem thread_sum_lift (input : List α) (n B G b t : Nat) (u : α) (hn : n ≤ input.length)
    (hb : b < G) (ht : t < B) (hin : B * b + t < n) :
    ∃ v, thread_sum op input n B G b t u = some v ∧
      Lift.of op (some v) =
        ∏ x ∈ (Finset.range n).filter (fun x => x % (B * G) = B * b + t), Lift.of op input[x]? := by
  obtain ⟨l, v, hl, hv, hlift, -⟩ :=
    thread_sum_spec op input n B G b t u hn (by omega) (by omega)
  obtain ⟨hnd, hfin⟩ := thread_indices_toFinset n B G b t hb ht l hl
  refine ⟨v, hv, ?_⟩
  rw [hlift hin, ← hfin, List.prod_toFinset _ hnd]

theorem thread_sum_ne_none (input : List α) (n B G b t : Nat) (u : α) (hn : n ≤ input.length)
    (hB : 0 < B) (hG : 0 < G) : thread_sum op input n B G b t u ≠ none := by
  obtain ⟨l, v, -, hv, -, -⟩ := thread_sum_spec op input n B G b t u hn hB hG
  rw [hv]; simp

theorem block_result_spec (input : List α) (n B G b : Nat) (u : Nat → α)
    (hn : n ≤ input.length) (hB : 0 < B) (hb : b < G) (hstart : B * b < n) :
    ∃ p, block_result op input n B G b u = some p ∧
      Lift.of op (some p) =
        ∏ t ∈ range B, ∏ x ∈ (range n).filter (fun x => x % (B * G) = B * b + t),
          Lift.of op input[x]? := by
  have hG : 0 < G := by omega
  obtain ⟨sdata, hsd, hlen, hget⟩ := allSome_range B
    (fun t => thread_sum op input n B G b t (u t))
    (fun t _ => thread_sum_ne_none op input n B G b t (u t) hn hB hG)
  obtain ⟨r, hr, hrlen, hprod⟩ := block_reduce_n_spec op sdata (min (n - B * b) B)
    (by omega) (by omega)
  have hr0 : 0 < r.length := by omega
  refine ⟨r[0], ?_, ?_⟩
  · simp only [block_result, hsd, hr]
    exact List.getElem?_eq_getElem hr0
  · rw [← List.getElem?_eq_getElem hr0, hprod]
    have hsplit : min (n - B * b) B + (B - min (n - B * b) B) = B := by omega
    have hadd := prod_range_add (fun t =>
      ∏ x ∈ (range n).filter (fun x => x % (B * G) = B * b + t), Lift.of op input[x]?)
      (min (n - B * b) B) (B - min (n - B * b) B)
    rw [hsplit] at hadd
    rw [hadd, prod_eq_one (s := range (B - min (n - B * b) B)) (by
      intro t ht
      have ht2 := mem_range.mp ht
      exact thread_prod_of_out op input n B G b (min (n - B * b) B + t) (by omega)), mul_one]
    apply prod_congr rfl
    intro t ht
    have ht1 := mem_range.mp ht
    obtain ⟨v, hv, hlift⟩ := thread_sum_lift op input n B G b t (u t) hn hb (by omega) (by omega)
    rw [hget t (by omega), hv, hlift]

theorem reduce_n_kernel_spec (G B : Nat) (input : List α) (n : Nat) (mem : List α) (base : Nat)
    (u : Nat → Nat → α) (hn : n ≤ input.length) (hB : 0 < B)
    (hstart : ∀ b, b < G → B * b < n) (hmem : base + G ≤ mem.length) :
    ∃ r, reduce_n_kernel op G B input n mem base u = some r ∧ r.length = mem.length ∧
      (∀ j, j < base ∨ base + G ≤ j → r[j]? = mem[j]?) ∧
      (∀ b, b < G → Lift.of op r[base + b]? =
        ∏ t ∈ range B, ∏ x ∈ (range n).filter (fun x => x % (B * G) = B * b + t),
          Lift.of op input[x]?) := by
  obtain ⟨results, hres, hlen, hget⟩ := allSome_range G
    (fun b => block_result op input n B G b (u b))
    (by
      intro b hb
      obtain ⟨p, hp, -⟩ := block_result_spec op input n B G b (u b) hn hB hb (hstart b hb)
      dsimp only
      rw [hp]; simp)
  obtain ⟨r, hr, hrlen, hout, hin⟩ := store_results_spec base results 0 mem (by omega)
  refine ⟨r, ?_, hrlen, ?_, ?_⟩
  · simp only [reduce_n_kernel, hres]
    exact hr
  · intro j hj
    exact hout j (by omega)
  · intro b hb
    obtain ⟨p, hp, hlift⟩ := block_result_spec op input n B G b (u b) hn hB hb (hstart b hb)
    have := hin b (by omega)
    rw [Nat.add_zero] at this
    rw [this, hget b hb, hp, hlift]

end Kernel

section Success

variable {α : Type} (op : α → α → α)

theorem accumulate_some (input : List α) (n g : Nat) (hn : n ≤ input.length) (hg : 0 < g) :
    ∀ fuel i sum, n - i < fuel → ∃ v, accumulate op input n g fuel i sum = some v := by
  intro fuel
  induction fuel with
  | zero => intro i sum h; omega
  | succ fuel ih =>
    intro i sum h
    simp only [accumulate]
    by_cases hin : i < n
    · rw [if_pos hin, List.getElem?_eq_getElem (show i < input.length by omega)]
      exact ih (i + g) _ (by omega)
    · rw [if_neg hin]
      exact ⟨sum, rfl⟩

theorem thread_sum_some (input : List α) (n B G b t : Nat) (u : α) (hn : n ≤ input.length)
    (hB : 0 < B) (hG : 0 < G) : ∃ v, thread_sum op input n B G b t u = some v := by
  have hg : 0 < B * G := Nat.mul_pos hB hG
  simp only [thread_sum]
  by_cases hin : B * b + t < n
  · rw [if_pos hin, List.getElem?_eq_getElem (show B * b + t < input.length by omega)]
    exact accumulate_some op input n (B * G) hn hg (n + 1) _ _ (by omega)
  · rw [if_neg hin]
    exact accumulate_some op input n (B * G) hn hg (n + 1) _ _ (by omega)

theorem fresh_temp_length (g : Garbage α) (nb : Nat) (init : α) :
    (fresh_temp g nb init).length = nb + 1 := by
  simp [fresh_temp]

theorem fresh_temp_zero (g : Garbage α) (nb : Nat) (init : α) :
    (fresh_temp g nb init)[0]? = some init := by
  simp [fresh_temp]

end Success

theorem num_blocks_pos (n bs mb : Nat) (hn : 0 < n) (hbs : 0 < bs) (hmb : 0 < mb) :
    0 < num_blocks n bs mb := by
  have : 0 < (n + bs - 1) / bs := Nat.div_pos (by omega) hbs
  simp only [num_blocks]
  omega

theorem num_blocks_start (n bs mb : Nat) (hbs : 0 < bs) :
    ∀ b, b < num_blocks n bs mb → bs * b < n := by
  intro b hb
  have h1 : num_blocks n bs mb ≤ (n + bs - 1) / bs := Nat.min_le_right _ _
  have h2 : bs * ((n + bs - 1) / bs) ≤ n + bs - 1 := Nat.mul_div_le _ _
  have h3 : bs * (b + 1) ≤ bs * ((n + bs - 1) / bs) := Nat.mul_le_mul_left _ (by omega)
  have h4 : bs * (b + 1) = bs * b + bs := by ring
  omega

theorem ceil_div_eq (n bs : Nat) (hbs : 0 < bs) :
    ⌈(n : ℚ) / (bs : ℚ)⌉₊ = (n + bs - 1) / bs := by
  have hq : (0 : ℚ) < (bs : ℚ) := by exact_mod_cast hbs
  have h1 := Nat.div_add_mod (n + bs - 1) bs
  have h2 := Nat.mod_lt (n + bs - 1) hbs
  apply le_antisymm
  · apply Nat.ceil_le.mpr
    rw [div_le_iff₀ hq]
    have : n ≤ (n + bs - 1) / bs * bs := by
      rw [Nat.mul_comm]; omega
    exact_mod_cast this
  · have h3 : (n : ℚ) / (bs : ℚ) ≤ (⌈(n : ℚ) / (bs : ℚ)⌉₊ : ℚ) := Nat.le_ceil _
    rw [div_le_iff₀ hq] at h3
    have h4 : n ≤ ⌈(n : ℚ) / (bs : ℚ)⌉₊ * bs := by exact_mod_cast h3
    have h5 : (n + bs - 1) / bs < ⌈(n : ℚ) / (bs : ℚ)⌉₊ + 1 := by
      apply (Nat.div_lt_iff_lt_mul hbs).mpr
      have : (⌈(n : ℚ) / (bs : ℚ)⌉₊ + 1) * bs = ⌈(n : ℚ) / (bs : ℚ)⌉₊ * bs + bs := by ring
      omega
    omega

section Driver

variable {α : Type} (op : α → α → α) [Std.Associative op] [Std.Commutative op]

theorem pass1_spec (g : Garbage α) (bs mb : Nat) (first : List α) (n : Nat) (init : α)
    (hn : n ≤ first.length) (hbs : 0 < bs) :
    ∃ temp, pass1 op g bs mb first n init = some temp ∧
      temp.length = num_blocks n bs mb + 1 ∧ temp[0]? = some init ∧
      ∀ b, b < num_blocks n bs mb → Lift.of op temp[b + 1]? =
        ∏ t ∈ range bs, ∏ x ∈ (range n).filter
          (fun x => x % (bs * num_blocks n bs mb) = bs * b + t), Lift.of op first[x]? := by
  obtain ⟨r, hr, hlen, hout, hin⟩ := reduce_n_kernel_spec op (num_blocks n bs mb) bs first n
    (fresh_temp g (num_blocks n bs mb) init) 1 g.sum1 hn hbs
    (num_blocks_start n bs mb hbs) (by rw [fresh_temp_length]; omega)
  refine ⟨r, hr, by rw [hlen, fresh_temp_length], ?_, ?_⟩
  · rw [hout 0 (Or.inl Nat.one_pos), fresh_temp_zero]
  · intro b hb
    rw [Nat.add_comm b 1]
    exact hin b hb

theorem pass2_spec (g : Garbage α) (bs nb : Nat) (temp : List α)
    (hlen : temp.length = nb + 1) (hbs : 0 < bs) :
    ∃ r, pass2 op g bs nb temp = some r ∧ r.length = nb + 1 ∧
      Lift.of op r[0]? = ∏ x ∈ range (nb + 1), Lift.of op temp[x]? := by
  obtain ⟨r, hr, hrlen, -, hin⟩ := reduce_n_kernel_spec op 1 bs temp (nb + 1) temp 0 g.sum2
    (by omega) hbs (by intro b hb; have : b = 0 := by omega
                       subst this; simp) (by omega)
  refine ⟨r, hr, by omega, ?_⟩
  have h0 := hin 0 Nat.one_pos
  have hp := prod_partition (fun x => Lift.of op temp[x]?) (nb + 1) bs 1 hbs Nat.one_pos
  rw [prod_range_one] at hp
  rw [← hp]
  simpa using h0

theorem reduce_n_spec (g : Garbage α) (bs mb : Nat) (first : List α) (n : Nat) (init : α)
    (hn : n ≤ first.length) (hbs : 0 < bs) (hmb : 0 < mb) :
    ∃ log, reduce_n op g bs mb first n init = some ((first.take n).foldl op init, log) := by
  by_cases hn0 : n = 0
  · subst hn0
    exact ⟨[], by simp [reduce_n]⟩
  · have hnpos : 0 < n := Nat.pos_of_ne_zero hn0
    obtain ⟨temp1, h1, hlen1, hz1, hs1⟩ := pass1_spec op g bs mb first n init hn hbs
    obtain ⟨temp2, h2, hlen2, hz2⟩ := pass2_spec op g bs (num_blocks n bs mb) temp1 hlen1 hbs
    have h20 : 0 < temp2.length := by omega
    refine ⟨[Event.launch_params bs mb (num_blocks n bs mb),
      Event.allocate (num_blocks n bs mb + 1), Event.kernel (num_blocks n bs mb) bs n,
      Event.kernel 1 bs (num_blocks n bs mb + 1)], ?_⟩
    simp only [reduce_n, if_neg hn0, if_neg (show ¬ bs = 0 by omega), h1, h2,
      List.getElem?_eq_getElem h20]
    congr 2
    apply Option.some.inj
    show Lift.of op (some temp2[0]) = Lift.of op (some (List.foldl op init (List.take n first)))
    rw [← List.getElem?_eq_getElem h20, hz2, prod_range_succ', hz1, Lift.of_foldl, ← prod_take,
      mul_comm]
    congr 1
    rw [prod_congr rfl (fun b hb => hs1 b (mem_range.mp hb))]
    exact prod_partition (fun x => Lift.of op first[x]?) n bs (num_blocks n bs mb) hbs
      (num_blocks_pos n bs mb hnpos hbs hmb)

end Driver

theorem split_unique (bs a q b t : Nat) (ha : a < bs) (ht : t < bs)
    (h : a + bs * q = bs * b + t) : q = b ∧ a = t := by
  have h1 : (a + bs * q) % bs = a := by
    rw [Nat.add_mul_mod_self_left, Nat.mod_eq_of_lt ha]
  have h2 : (bs * b + t) % bs = t := by
    rw [Nat.add_comm, Nat.add_mul_mod_self_left, Nat.mod_eq_of_lt ht]
  have h3 : a = t := by rw [← h1, h, h2]
  subst h3
  have h4 : bs * q = bs * b := by omega
  exact ⟨Nat.eq_of_mul_eq_mul_left (by omega) h4, rfl⟩

theorem mod_grid_iff (bs nb b t x : Nat) (ht : t < bs) :
    x % (bs * nb) = bs * b + t ↔ (x / bs) % nb = b ∧ x % bs = t := by
  have hbs : 0 < bs := by omega
  rw [Nat.mod_mul]
  constructor
  · intro h
    exact split_unique bs (x % bs) (x / bs % nb) b t (Nat.mod_lt _ hbs) ht h
  · rintro ⟨h1, h2⟩
    rw [h1, h2, Nat.add_comm]

theorem thread_indices_mem (n bs nb b t : Nat) (hb : b < nb) (ht : t < bs) (l : List Nat)
    (hl : thread_indices n bs nb b t = some l) (x : Nat) :
    x ∈ l ↔ x < n ∧ x % (bs * nb) = bs * b + t := by
  obtain ⟨-, hfin⟩ := thread_indices_toFinset n bs nb b t hb ht l hl
  rw [← List.mem_toFinset, hfin, Finset.mem_filter, Finset.mem_range]

theorem filterMap_lift_prod {α : Type} (op : α → α → α) [Std.Associative op]
    [Std.Commutative op] (f : Nat → Option α) (l : List Nat) :
    ((l.filterMap f).map fun y => Lift.of op (some y)).prod =
      (l.map fun i => Lift.of op (f i)).prod := by
  induction l with
  | nil => simp
  | cons i is ih =>
    rw [List.filterMap_cons]
    cases hf : f i with
    | none => simp [hf, ih, Lift.of_none]
    | some y => simp [hf, ih]

theorem block_prod_eq {α : Type} (op : α → α → α) [Std.Associative op] [Std.Commutative op]
    (first : List α) (n bs nb b : Nat) (hbs : 0 < bs) :
    ∏ t ∈ range bs, ∏ x ∈ (range n).filter (fun x => x % (bs * nb) = bs * b + t),
        Lift.of op first[x]? =
      Lift.of op (combine op
        (((List.range n).filter fun i => (i / bs) % nb = b).filterMap fun i => first[i]?)) := by
  rw [Lift.of_combine, filterMap_lift_prod,
    ← List.prod_toFinset _ ((List.nodup_range n).filter _)]
  have hset : ((List.range n).filter fun i => (i / bs) % nb = b).toFinset =
      (range n).filter (fun x => (x / bs) % nb = b) := by
    ext x; simp
  rw [hset]
  have hfib := prod_fiberwise_of_maps_to (s := (range n).filter (fun x => (x / bs) % nb = b))
    (t := range bs) (g := fun x => x % bs)
    (fun x _ => mem_range.mpr (Nat.mod_lt x hbs)) (fun x => Lift.of op first[x]?)
  rw [← hfib]
  apply prod_congr rfl
  intro t ht
  apply prod_congr _ (fun _ _ => rfl)
  ext x
  simp only [mem_filter, mem_range]
  rw [mod_grid_iff bs nb b t x (mem_range.mp ht)]
  tauto

/-- C2: with `n = 0`, `reduce_n` returns `init` unchanged for every operator,
every input and every launch configuration, and performs no device action: no
launch-parameter computation, no buffer allocation, no kernel launch. -/
theorem reduce_n_zero_length {α : Type} (op : α → α → α) (g : Garbage α)
    (block_size max_blocks : Nat) (first : List α) (init : α) :
    reduce_n op g block_size max_blocks first 0 init = some (init, []) := by
  simp [reduce_n]

/-- With exact integers, the walks of the threads of a grid cover the indices
below `n` once each. -/
theorem exact_walk_partition (n block_size num_blocks : Nat) (hbs : 1 ≤ block_size)
    (hnb : 1 ≤ num_blocks) :
    ∃ visits : Nat → Nat → List Nat,
      (∀ b t, thread_indices n block_size num_blocks b t = some (visits b t)) ∧
      (∀ b t i, i ∈ visits b t ↔
        i < n ∧ ∃ j, i = block_size * b + t + j * (block_size * num_blocks)) ∧
      (∀ b t i, i ∈ visits b t → i < n) ∧
      (∀ i, i < n → ∃ b t, b < num_blocks ∧ t < block_size ∧ (visits b t).count i = 1 ∧
        ∀ b2 t2, b2 < num_blocks → t2 < block_size → i ∈ visits b2 t2 → b2 = b ∧ t2 = t) := by
  have hg : 0 < block_size * num_blocks := Nat.mul_pos hbs hnb
  have hv : ∀ b t, thread_indices n block_size num_blocks b t =
      some ((thread_indices n block_size num_blocks b t).getD []) := by
    intro b t
    obtain ⟨l, hl, -, -⟩ := thread_indices_spec n block_size num_blocks b t hbs hnb
    rw [hl]; rfl
  refine ⟨fun b t => (thread_indices n block_size num_blocks b t).getD [], hv, ?_, ?_, ?_⟩
  · intro b t i
    obtain ⟨l, hl, -, hmem⟩ := thread_indices_spec n block_size num_blocks b t hbs hnb
    have hil : i ∈ (thread_indices n block_size num_blocks b t).getD [] ↔ i ∈ l := by
      simp [hl]
    rw [hil, hmem]
    constructor
    · rintro ⟨h1, h2, j, hj⟩
      exact ⟨h2, j, by rw [Nat.mul_comm j]; omega⟩
    · rintro ⟨h2, j, hj⟩
      refine ⟨by omega, h2, j, ?_⟩
      rw [Nat.mul_comm j] at hj
      omega
  · intro b t i hi
    obtain ⟨l, hl, -, hmem⟩ := thread_indices_spec n block_size num_blocks b t hbs hnb
    have hi2 : i ∈ l := by simpa [hl] using hi
    exact ((hmem i).mp hi2).2.1
  · intro i hi
    have hlt : i % (block_size * num_blocks) / block_size < num_blocks :=
      Nat.div_lt_of_lt_mul (Nat.mod_lt _ hg)
    have hmod : i % (block_size * num_blocks) % block_size < block_size := Nat.mod_lt _ hbs
    have hsplit : i % (block_size * num_blocks) =
        block_size * (i % (block_size * num_blocks) / block_size) +
          i % (block_size * num_blocks) % block_size := (Nat.div_add_mod _ _).symm
    refine ⟨i % (block_size * num_blocks) / block_size,
      i % (block_size * num_blocks) % block_size, hlt, hmod, ?_, ?_⟩
    · apply List.count_eq_one_of_mem
        (thread_indices_toFinset n block_size num_blocks _ _ hlt hmod _ (hv _ _)).1
      rw [thread_indices_mem n block_size num_blocks _ _ hlt hmod _ (hv _ _)]
      exact ⟨hi, hsplit⟩
    · intro b2 t2 hb2 ht2 hmem
      rw [thread_indices_mem n block_size num_blocks b2 t2 hb2 ht2 _ (hv b2 t2)] at hmem
      have heq : t2 + block_size * b2 =
          block_size * (i % (block_size * num_blocks) / block_size) +
            i % (block_size * num_blocks) % block_size := by
        rw [← hsplit, hmem.2, Nat.add_comm]
      exact split_unique block_size t2 b2 _ _ ht2 hmod heq

/-- C4: for every `n` (in particular `n >= 1`), `block_size >= 1` and
`max_blocks`, the block count of line 118, computed with truncating division,
is `min(max_blocks, ceil(n / block_size))`, the ceiling being that of the exact
rational quotient. -/
theorem num_blocks_eq_min_ceil (n block_size max_blocks : Nat) (hbs : 1 ≤ block_size) :
    num_blocks n block_size max_blocks =
      min max_blocks ⌈(n : ℚ) / (block_size : ℚ)⌉₊ := by
  rw [ceil_div_eq n block_size hbs]
  rfl

/-- Witness for C4: eleven elements in blocks of three, at most seven blocks. -/
theorem num_blocks_eq_min_ceil_witness :
    num_blocks 11 3 7 = min 7 ⌈((11 : Nat) : ℚ) / ((3 : Nat) : ℚ)⌉₊ :=
  num_blocks_eq_min_ceil 11 3 7 (by decide)

/-- C5 as stated fails: with an occupancy limit of zero blocks the driver
chooses zero blocks, which is not at least one. -/
theorem num_blocks_lower_bound_fails :
    ¬ (1 ≤ num_blocks 5 2 0 ∧ num_blocks 5 2 0 ≤ ⌈((5 : Nat) : ℚ) / ((2 : Nat) : ℚ)⌉₊) :=
  fun h => absurd h.1 (by decide)

/-- C5 amended: for `n >= 1`, `block_size >= 1` and an occupancy limit
`max_blocks >= 1`, the block count chosen for pass 1 is at least 1 and at most
`ceil(n / block_size)`. -/
theorem num_blocks_bounds (n block_size max_blocks : Nat) (hn : 1 ≤ n) (hbs : 1 ≤ block_size)
    (hmb : 1 ≤ max_blocks) :
    1 ≤ num_blocks n block_size max_blocks ∧
      num_blocks n block_size max_blocks ≤ ⌈(n : ℚ) / (block_size : ℚ)⌉₊ := by
  refine ⟨num_blocks_pos n block_size max_blocks hn hbs hmb, ?_⟩
  rw [ceil_div_eq n block_size hbs]
  exact Nat.min_le_right _ _

/-- Witness for C5 amended: five elements, blocks of two, limit of eight. -/
theorem num_blocks_bounds_witness :
    1 ≤ num_blocks 5 2 8 ∧ num_blocks 5 2 8 ≤ ⌈((5 : Nat) : ℚ) / ((2 : Nat) : ℚ)⌉₊ :=
  num_blocks_bounds 5 2 8 (by decide) (by decide) (by decide)

/-- With exact integers, the buffer after the first launch holds, in slot
`b + 1`, the combination of the elements owned by block `b`. -/
theorem pass1_exact_block_slots {α : Type} (op : α → α → α)
    (hassoc : ∀ a b c, op (op a b) c = op a (op b c)) (hcomm : ∀ a b, op a b = op b a)
    (g : Garbage α) (block_size max_blocks : Nat) (first : List α) (n : Nat) (init : α)
    (hn1 : 1 ≤ n) (hn : n ≤ first.length) (hbs : 1 ≤ block_size) (hmb : 1 ≤ max_blocks) :
    1 ≤ num_blocks n block_size max_blocks ∧
    ∃ temp, pass1 op g block_size max_blocks first n init = some temp ∧
      temp.length = num_blocks n block_size max_blocks + 1 ∧
      (∀ b, b < num_blocks n block_size max_blocks →
        temp[b + 1]? ≠ none ∧
        temp[b + 1]? = combine op
          (((List.range n).filter fun i =>
              (i / block_size) % num_blocks n block_size max_blocks = b).filterMap
            fun i => first[i]?)) ∧
      (∀ b, result_slot 1 b = b + 1) ∧
      (∀ b b2, result_slot 1 b = result_slot 1 b2 → b = b2) ∧
      (∀ s, 1 ≤ s → s ≤ num_blocks n block_size max_blocks →
        ∃ b, b < num_blocks n block_size max_blocks ∧ result_slot 1 b = s ∧
          ∀ b2, result_slot 1 b2 = s → b2 = b) := by
  haveI : Std.Associative op := ⟨hassoc⟩
  haveI : Std.Commutative op := ⟨hcomm⟩
  refine ⟨num_blocks_pos n block_size max_blocks hn1 hbs hmb, ?_⟩
  obtain ⟨temp, h, hlen, -, hs⟩ := pass1_spec op g block_size max_blocks first n init hn hbs
  refine ⟨temp, h, hlen, ?_, ?_, ?_, ?_⟩
  · intro b hb
    refine ⟨?_, ?_⟩
    · rw [List.getElem?_eq_getElem (show b + 1 < temp.length by omega)]
      simp
    · have := hs b hb
      rw [block_prod_eq op first n block_size _ b hbs] at this
      exact this
  · intro b
    simp only [result_slot]; omega
  · intro b b2 hbb
    simp only [result_slot] at hbb; omega
  · intro s hs1 hs2
    refine ⟨s - 1, by omega, by simp only [result_slot]; omega, ?_⟩
    intro b2 hb2
    simp only [result_slot] at hb2; omega

/-- C9: for an associative and commutative operator, a scratch array of any
size and any active count `k` with `1 <= k <= size` (a power of two or not),
the block-level tree reduction completes, keeps the size of the scratch array
and leaves in slot 0 the combination of the `k` scratch values at indices
`0..k-1`, each used exactly once. -/
theorem block_reduce_n_slot_zero {α : Type} (op : α → α → α)
    (hassoc : ∀ a b c, op (op a b) c = op a (op b c)) (hcomm : ∀ a b, op a b = op b a)
    (sdata : List α) (k : Nat) (hk1 : 1 ≤ k) (hk : k ≤ sdata.length) :
    ∃ s, block.reduce_n op sdata k = some s ∧ s.length = sdata.length ∧
      s[0]? = combine op (sdata.take k) := by
  haveI : Std.Associative op := ⟨hassoc⟩
  haveI : Std.Commutative op := ⟨hcomm⟩
  obtain ⟨s, hs, hlen, hprod⟩ := block_reduce_n_spec op sdata k hk1 hk
  refine ⟨s, hs, hlen, ?_⟩
  rw [prod_take, ← Lift.of_combine] at hprod
  exact hprod

/-- Witness for C9: five active slots out of seven. -/
theorem block_reduce_n_slot_zero_witness :
    ∃ s, block.reduce_n (fun a b : Nat => a + b) [1, 2, 3, 4, 5, 100, 200] 5 = some s ∧
      s.length = [1, 2, 3, 4, 5, 100, 200].length ∧
      s[0]? = combine (fun a b : Nat => a + b) ([1, 2, 3, 4, 5, 100, 200].take 5) :=
  block_reduce_n_slot_zero _ Nat.add_assoc Nat.add_comm [1, 2, 3, 4, 5, 100, 200] 5
    (by decide) (by decide)

theorem block_result_active_count {α : Type} (op : α → α → α) (input : List α)
    (n B G b : Nat) (u : Nat → α) :
    block_result op input n B G b u =
      match allSome ((List.range B).map fun t => thread_sum op input n B G b t (u t)) with
      | none => none
      | some sdata =>
        match block.reduce_n op sdata (active_count n B b) with
        | none => none
        | some s => s[0]? := rfl

theorem thread_indices_thread_start (n B G b t : Nat) :
    thread_indices n B G b t =
      if thread_start B b t < n then
        visit_loop n (B * G) (n + 1) (thread_start B b t + B * G) [thread_start B b t]
      else visit_loop n (B * G) (n + 1) (thread_start B b t) [] := rfl

theorem num_blocks_le_ceil (n bs mb : Nat) : num_blocks n bs mb ≤ (n + bs - 1) / bs :=
  Nat.min_le_right _ _

section Indep

variable {α : Type} (op : α → α → α)

end Indep

theorem visit_loop32_eq (n g : Nat) (h : n + g ≤ uint_modulus) :
    ∀ fuel i seen, visit_loop32 n (g % uint_modulus) fuel i seen = visit_loop n g fuel i seen := by
  intro fuel
  induction fuel with
  | zero => intro i seen; rfl
  | succ fuel ih =>
    intro i seen
    simp only [visit_loop32, visit_loop]
    by_cases hin : i < n
    · rw [if_pos hin, if_pos hin]
      have hg : g % uint_modulus = g := Nat.mod_eq_of_lt (by omega)
      have hi : (i + g % uint_modulus) % uint_modulus = i + g := by
        rw [hg]; exact Nat.mod_eq_of_lt (by omega)
      rw [hi]
      exact ih (i + g) (seen ++ [i])
    · rw [if_neg hin, if_neg hin]

theorem thread_indices32_eq (n bs nb b t : Nat) (h : n + bs * nb ≤ uint_modulus)
    (hb : b < nb) (ht : t < bs) :
    thread_indices32 n bs nb b t = thread_indices n bs nb b t := by
  have hs : bs * b + t < bs * nb := thread_start_lt bs nb b t hb ht
  have hmod : (bs * b + t) % uint_modulus = bs * b + t := Nat.mod_eq_of_lt (by omega)
  simp only [thread_indices32, thread_indices, hmod]
  by_cases hin : bs * b + t < n
  · rw [if_pos hin, if_pos hin]
    have hg : (bs * nb) % uint_modulus = bs * nb := Nat.mod_eq_of_lt (by omega)
    have hi : (bs * b + t + bs * nb % uint_modulus) % uint_modulus = bs * b + t + bs * nb := by
      rw [hg]; exact Nat.mod_eq_of_lt (by omega)
    rw [hi]
    exact visit_loop32_eq n (bs * nb) h _ _ _
  · rw [if_neg hin, if_neg hin]
    exact visit_loop32_eq n (bs * nb) h _ _ _

theorem visit_loop_length (n g : Nat) (hg : 0 < g) :
    ∀ fuel i l, visit_loop n g fuel i [] = some l → l.length ≤ (n - i + g - 1) / g := by
  intro fuel
  induction fuel with
  | zero => intro i l h; simp [visit_loop] at h
  | succ fuel ih =>
    intro i l h
    simp only [visit_loop] at h
    split at h
    · rename_i hin
      rw [visit_loop_seen] at h
      obtain ⟨l1, hl1, rfl⟩ := Option.map_eq_some'.mp h
      have h1 := ih (i + g) l1 hl1
      simp only [List.nil_append, List.singleton_append, List.length_cons]
      by_cases hc : i + g ≤ n
      · have : n - i + g - 1 = n - (i + g) + g - 1 + g := by omega
        rw [this, Nat.add_div_right _ hg]
        omega
      · have h2 : n - (i + g) + g - 1 = g - 1 := by omega
        rw [h2, Nat.div_eq_of_lt (by omega)] at h1
        have h3 : 1 ≤ (n - i + g - 1) / g := (Nat.le_div_iff_mul_le hg).mpr (by omega)
        omega
    · cases h
      exact Nat.zero_le _

theorem thread_indices_length (n bs nb b t : Nat) (hbs : 0 < bs) (hnb : 0 < nb) (l : List Nat)
    (hl : thread_indices n bs nb b t = some l) :
    l.length ≤ (n + bs * nb - 1) / (bs * nb) := by
  have hg : 0 < bs * nb := Nat.mul_pos hbs hnb
  have key : thread_indices n bs nb b t = visit_loop n (bs * nb) (n + 2) (bs * b + t) [] := by
    simp only [thread_indices, visit_loop]
    split <;> simp
  rw [key] at hl
  exact le_trans (visit_loop_length n (bs * nb) hg _ _ l hl) (Nat.div_le_div_right (by omega))

theorem thread_indices_lt (n bs nb b t : Nat) (hbs : 0 < bs) (hnb : 0 < nb) (l : List Nat)
    (hl : thread_indices n bs nb b t = some l) : ∀ i, i ∈ l → i < n := by
  obtain ⟨l1, hl1, -, hmem⟩ := thread_indices_spec n bs nb b t hbs hnb
  rw [hl] at hl1
  cases hl1
  intro i hi
  exact ((hmem i).mp hi).2.1

theorem active_count_pos (n bs b : Nat) (hbs : 0 < bs) (h : bs * b < n) :
    1 ≤ active_count n bs b := by
  simp only [active_count]; omega

/-- C15: for `block_size >= 1`, `num_blocks >= 1` and
`n + block_size * num_blocks <= 2^32`, every thread of the grid starts at an
index below `2^32`, every increment `i + grid_size` it performs stays below
`2^32`, and the walk computed in `unsigned int` arithmetic visits exactly the
indices of the walk computed with unbounded integers. -/
theorem thread_indices32_no_wrap (n block_size num_blocks : Nat) (hbs : 1 ≤ block_size)
    (hnb : 1 ≤ num_blocks) (h : n + block_size * num_blocks ≤ 2 ^ 32) :
    ∀ b t, b < num_blocks → t < block_size →
      thread_start block_size b t < uint_modulus ∧
      ∃ l, thread_indices32 n block_size num_blocks b t = some l ∧
        thread_indices n block_size num_blocks b t = some l ∧
        ∀ i, i ∈ l → i + block_size * num_blocks < uint_modulus := by
  intro b t hb ht
  have hM : uint_modulus = 2 ^ 32 := rfl
  have hs : block_size * b + t < block_size * num_blocks :=
    thread_start_lt block_size num_blocks b t hb ht
  obtain ⟨l, hl, -, -⟩ := thread_indices_spec n block_size num_blocks b t hbs hnb
  refine ⟨by simp only [thread_start]; omega, l, ?_, hl, ?_⟩
  · rw [thread_indices32_eq n block_size num_blocks b t (by omega) hb ht, hl]
  · intro i hi
    have := thread_indices_lt n block_size num_blocks b t hbs hnb l hl i hi
    omega

/-- Witness for C15: thread 1 of block 1 of two blocks of three threads over
eleven elements. -/
theorem thread_indices32_no_wrap_witness :
    thread_start 3 1 1 < uint_modulus ∧
      ∃ l, thread_indices32 11 3 2 1 1 = some l ∧ thread_indices 11 3 2 1 1 = some l ∧
        ∀ i, i ∈ l → i + 3 * 2 < uint_modulus :=
  thread_indices32_no_wrap 11 3 2 (by decide) (by decide) (by decide) 1 1 (by decide)
    (by decide)

section Wrap

variable {α : Type} (op : α → α → α)

theorem accumulate32_eq (input : List α) (n g : Nat) (h : n + g ≤ uint_modulus) :
    ∀ fuel i sum, accumulate32 op input n (g % uint_modulus) fuel i sum =
      accumulate op input n g fuel i sum := by
  intro fuel
  induction fuel with
  | zero => intro i sum; rfl
  | succ fuel ih =>
    intro i sum
    simp only [accumulate32, accumulate]
    by_cases hin : i < n
    · rw [if_pos hin, if_pos hin]
      have hg : g % uint_modulus = g := Nat.mod_eq_of_lt (by omega)
      have hi : (i + g % uint_modulus) % uint_modulus = i + g := by
        rw [hg]; exact Nat.mod_eq_of_lt (by omega)
      rw [hi]
      cases input[i]? with
      | none => rfl
      | some x => exact ih (i + g) (op sum x)
    · rw [if_neg hin, if_neg hin]

theorem thread_sum32_eq (input : List α) (n B G b t : Nat) (u : α)
    (h : n + B * G ≤ uint_modulus) (hb : b < G) (ht : t < B) :
    thread_sum32 op input n B G b t u = thread_sum op input n B G b t u := by
  have hs : B * b + t < B * G := thread_start_lt B G b t hb ht
  have hmod : (B * b + t) % uint_modulus = B * b + t := Nat.mod_eq_of_lt (by omega)
  simp only [thread_sum32, thread_sum, hmod]
  by_cases hin : B * b + t < n
  · rw [if_pos hin, if_pos hin]
    have hg : (B * G) % uint_modulus = B * G := Nat.mod_eq_of_lt (by omega)
    have hi : (B * b + t + B * G % uint_modulus) % uint_modulus = B * b + t + B * G := by
      rw [hg]; exact Nat.mod_eq_of_lt (by omega)
    rw [hi]
    cases input[B * b + t]? with
    | none => rfl
    | some x => exact accumulate32_eq op input n (B * G) h _ _ _
  · rw [if_neg hin, if_neg hin]
    exact accumulate32_eq op input n (B * G) h _ _ _

theorem active_count32_eq (n B b : Nat) (h1 : B * b ≤ n) (h2 : n < uint_modulus) :
    active_count32 n B b = active_count n B b := by
  have hmod : (B * b) % uint_modulus = B * b := Nat.mod_eq_of_lt (by omega)
  have hsum : n + uint_modulus - B * b = (n - B * b) + uint_modulus := by omega
  simp only [active_count32, active_count, hmod, hsum, Nat.add_mod_right]
  rw [Nat.mod_eq_of_lt (by omega)]

theorem block_result32_eq (input : List α) (n B G b : Nat) (u : Nat → α)
    (h : n + B * G ≤ uint_modulus) (hB : 0 < B) (hb : b < G) (hs : B * b ≤ n) :
    block_result32 op input n B G b u = block_result op input n B G b u := by
  have hmap : ((List.range B).map fun t => thread_sum32 op input n B G b t (u t)) =
      (List.range B).map fun t => thread_sum op input n B G b t (u t) := by
    apply List.map_congr_left
    intro t ht
    exact thread_sum32_eq op input n B G b t (u t) h hb (List.mem_range.mp ht)
  have hpos : 0 < B * G := Nat.mul_pos hB (by omega)
  have key : ∀ (l1 l2 : List (Option α)) (k1 k2 : Nat), l1 = l2 → k1 = k2 →
      (match allSome l1 with
        | none => none
        | some sdata =>
          match block.reduce_n op sdata k1 with
          | none => none
          | some s => s[0]?) =
      (match allSome l2 with
        | none => none
        | some sdata =>
          match block.reduce_n op sdata k2 with
          | none => none
          | some s => s[0]?) := by
    intro l1 l2 k1 k2 h1 h2
    subst h1
    subst h2
    rfl
  exact key _ _ _ _ hmap (active_count32_eq n B b hs (by omega))

theorem reduce_n_kernel32_eq (G B : Nat) (input : List α) (n : Nat) (mem : List α) (base : Nat)
    (u : Nat → Nat → α) (h : n + B * G ≤ uint_modulus) (hB : 0 < B)
    (hstart : ∀ b, b < G → B * b ≤ n) :
    reduce_n_kernel32 op G B input n mem base u = reduce_n_kernel op G B input n mem base u := by
  have hmap : ((List.range G).map fun b => block_result32 op input n B G b (u b)) =
      (List.range G).map fun b => block_result op input n B G b (u b) := by
    apply List.map_congr_left
    intro b hb
    have hb2 := List.mem_range.mp hb
    exact block_result32_eq op input n B G b (u b) h hB hb2 (hstart b hb2)
  simp only [reduce_n_kernel32, reduce_n_kernel, hmap]

theorem pass1_32_eq (g : Garbage α) (bs mb : Nat) (first : List α) (n : Nat) (init : α)
    (hn : 0 < n) (hbs : 0 < bs) (hmb : 0 < mb)
    (h : n + bs * num_blocks n bs mb ≤ uint_modulus) :
    pass1_32 op g bs mb first n init = pass1 op g bs mb first n init := by
  have hnb := num_blocks_pos n bs mb hn hbs hmb
  have h2 : bs ≤ bs * num_blocks n bs mb := Nat.le_mul_of_pos_right _ hnb
  simp only [pass1_32, pass1, Nat.mod_eq_of_lt (show n < uint_modulus by omega)]
  exact reduce_n_kernel32_eq op _ bs first n _ 1 g.sum1 h hbs
    (fun b hb => Nat.le_of_lt (num_blocks_start n bs mb hbs b hb))

theorem pass2_32_eq (g : Garbage α) (bs nb : Nat) (temp : List α) (hbs : 0 < bs)
    (h : nb + 1 + bs ≤ uint_modulus) :
    pass2_32 op g bs nb temp = pass2 op g bs nb temp := by
  simp only [pass2_32, pass2, Nat.mod_eq_of_lt (show nb + 1 < uint_modulus by omega)]
  exact reduce_n_kernel32_eq op 1 bs temp (nb + 1) temp 0 g.sum2 (by omega) hbs
    (fun b hb => by have : b = 0 := by omega
                    subst this; omega)

theorem reduce_n32_eq (g : Garbage α) (bs mb : Nat) (first : List α) (n : Nat) (init : α)
    (hbs : 0 < bs) (hmb : 0 < mb) (h1 : n + bs * num_blocks n bs mb ≤ uint_modulus)
    (h2 : num_blocks n bs mb + 1 + bs ≤ uint_modulus) :
    reduce_n32 op g bs mb first n init = reduce_n op g bs mb first n init := by
  by_cases hn : n = 0
  · subst hn; simp [reduce_n32, reduce_n]
  · simp only [reduce_n32, reduce_n,
      pass1_32_eq op g bs mb first n init (Nat.pos_of_ne_zero hn) hbs hmb h1,
      pass2_32_eq op g bs (num_blocks n bs mb) _ hbs h2]

theorem accumulate32_take (input : List α) (n g : Nat) :
    ∀ fuel i sum, accumulate32 op (input.take n) n g fuel i sum =
      accumulate32 op input n g fuel i sum := by
  intro fuel
  induction fuel with
  | zero => intro i sum; rfl
  | succ fuel ih =>
    intro i sum
    simp only [accumulate32]
    by_cases hin : i < n
    · rw [if_pos hin, if_pos hin, List.getElem?_take_of_lt hin]
      cases input[i]? with
      | none => rfl
      | some x => exact ih _ _
    · rw [if_neg hin, if_neg hin]

theorem thread_sum32_take (input : List α) (n B G b t : Nat) (u : α) :
    thread_sum32 op (input.take n) n B G b t u = thread_sum32 op input n B G b t u := by
  simp only [thread_sum32]
  by_cases hin : (B * b + t) % uint_modulus < n
  · rw [if_pos hin, if_pos hin, List.getElem?_take_of_lt hin]
    cases input[(B * b + t) % uint_modulus]? with
    | none => rfl
    | some x => exact accumulate32_take op input n _ _ _ _
  · rw [if_neg hin, if_neg hin]
    exact accumulate32_take op input n _ _ _ _

theorem reduce_n_kernel32_take (G B : Nat) (input : List α) (n : Nat) (mem : List α)
    (base : Nat) (u : Nat → Nat → α) :
    reduce_n_kernel32 op G B (input.take n) n mem base u =
      reduce_n_kernel32 op G B input n mem base u := by
  have hfun : (fun b => block_result32 op (input.take n) n B G b (u b)) =
      fun b => block_result32 op input n B G b (u b) := by
    funext b
    have hthr : (fun t => thread_sum32 op (input.take n) n B G b t (u b t)) =
        fun t => thread_sum32 op input n B G b t (u b t) := by
      funext t
      exact thread_sum32_take op input n B G b t (u b t)
    simp only [block_result32, hthr]
  simp only [reduce_n_kernel32, hfun]

theorem pass1_32_take (g : Garbage α) (bs mb : Nat) (first : List α) (n : Nat) (init : α) :
    pass1_32 op g bs mb (first.take (n % uint_modulus)) n init =
      pass1_32 op g bs mb first n init := by
  simp only [pass1_32]
  exact reduce_n_kernel32_take op _ _ first _ _ 1 g.sum1

theorem reduce_n32_take (g : Garbage α) (bs mb : Nat) (first : List α) (n : Nat) (init : α) :
    reduce_n32 op g bs mb (first.take (n % uint_modulus)) n init =
      reduce_n32 op g bs mb first n init := by
  simp only [reduce_n32, pass1_32_take]

end Wrap

theorem visit_loop32_stuck (n i : Nat) (hin : i < n) (hi : i < uint_modulus) :
    ∀ fuel seen, visit_loop32 n 0 fuel i seen = none := by
  intro fuel
  induction fuel with
  | zero => intro seen; rfl
  | succ fuel ih =>
    intro seen
    simp only [visit_loop32, if_pos hin, Nat.add_zero, Nat.mod_eq_of_lt hi]
    exact ih _

theorem foldl_add_eq_sum (xs : List Nat) (x : Nat) :
    xs.foldl (fun a b : Nat => a + b) x = x + xs.sum := by
  induction xs generalizing x with
  | nil => simp
  | cons y ys ih => rw [List.foldl_cons, ih, List.sum_cons]; omega

theorem combine_add_ge (l s : List Nat) (hs : s.Sublist l) (hne : s ≠ []) :
    ∃ v, combine (fun a b : Nat => a + b) l = some v ∧ s.sum ≤ v := by
  cases l with
  | nil => exact absurd (List.eq_nil_of_sublist_nil hs) hne
  | cons x xs =>
    refine ⟨xs.foldl (fun a b : Nat => a + b) x, rfl, ?_⟩
    rw [foldl_add_eq_sum, ← List.sum_cons]
    exact hs.sum_le_sum (fun a _ => Nat.zero_le a)

theorem reduce_n32_of_take {α : Type} (op : α → α → α) (g : Garbage α) (bs mb : Nat)
    (first l : List α) (n : Nat) (init : α) (h : first.take (n % uint_modulus) = l) :
    reduce_n32 op g bs mb first n init = reduce_n32 op g bs mb l n init := by
  rw [← reduce_n32_take, h]

theorem pass1_32_of_take {α : Type} (op : α → α → α) (g : Garbage α) (bs mb : Nat)
    (first l : List α) (n : Nat) (init : α) (h : first.take (n % uint_modulus) = l) :
    pass1_32 op g bs mb first n init = pass1_32 op g bs mb l n init := by
  rw [← pass1_32_take, h]

theorem take_three_ones (N : Nat) (hN : 3 ≤ N) : List.take 3 (List.replicate N 1) = [1, 1, 1] := by
  rw [List.take_replicate, Nat.min_eq_left hN]
  rfl

theorem combine_block_zero_ge (first : List Nat) (n nb : Nat) (hn : 5 ≤ n) (hnb : nb = 2)
    (h0 : first[0]? = some 1) (h1 : first[1]? = some 1) (h4 : first[4]? = some 1) :
    ∃ v, combine (fun a b : Nat => a + b)
        (((List.range n).filter fun i => (i / 2) % nb = 0).filterMap fun i => first[i]?) =
          some v ∧ 3 ≤ v := by
  subst hnb
  have h5 : (List.range 5).Sublist (List.range n) := List.range_sublist.mpr hn
  have hf := (h5.filter fun i => decide ((i / 2) % 2 = 0)).filterMap fun i => first[i]?
  have hl : ((List.range 5).filter fun i => decide ((i / 2) % 2 = 0)) = [0, 1, 4] := by decide
  have hm : ([0, 1, 4].filterMap fun i => first[i]?) = [1, 1, 1] := by
    simp [List.filterMap_cons, h0, h1, h4]
  rw [hl, hm] at hf
  obtain ⟨v, hv, hge⟩ := combine_add_ge _ [1, 1, 1] hf (by simp)
  exact ⟨v, hv, hge⟩

theorem foldl_add_replicate (k a : Nat) :
    (List.replicate k 1).foldl (fun x y : Nat => x + y) a = a + k := by
  induction k generalizing a with
  | zero => rfl
  | succ k ih =>
    rw [List.replicate_succ, List.foldl_cons, ih]
    omega

/-- C1 as stated fails: for an input of `2^32 + 3` ones, addition, seed 0,
`block_size = 2` and `max_blocks = 2`, the kernel receives `n mod 2^32 = 3`
and `reduce_n` returns 3, while the sequential fold over the `2^32 + 3`
elements is `2^32 + 3`. -/
theorem reduce_n32_truncates_length :
    4294967299 ≤ (List.replicate 4294967299 1).length ∧
    (reduce_n32 (fun a b : Nat => a + b) ⟨fun _ _ => 7, fun _ _ => 9, fun _ => 11⟩ 2 2
        (List.replicate 4294967299 1) 4294967299 0).map Prod.fst = some 3 ∧
    ((List.replicate 4294967299 1).take 4294967299).foldl (fun a b : Nat => a + b) 0 =
      4294967299 := by
  refine ⟨Nat.le_of_eq (List.length_replicate _ _).symm, ?_, ?_⟩
  · have h := reduce_n32_of_take (fun a b : Nat => a + b)
      ⟨fun _ _ => 7, fun _ _ => 9, fun _ => 11⟩ 2 2 (List.replicate 4294967299 1) [1, 1, 1]
      4294967299 0 (take_three_ones 4294967299 (by decide))
    exact (congrArg (Option.map Prod.fst) h).trans (by decide)
  · rw [List.take_replicate, Nat.min_self, foldl_add_replicate, Nat.zero_add]

/-- C1 amended: for an associative and commutative operator, a launch
configuration with `block_size >= 1` and `max_blocks >= 1`, an input of at
least `n` elements, and sizes for which neither launch wraps its 32-bit index
(`n + block_size * num_blocks <= 2^32` and
`num_blocks + 1 + block_size <= 2^32`), `reduce_n` returns the strictly
sequential left-to-right fold of the operator over `init` followed by
`first[0..n)`. -/
theorem reduce_n32_eq_sequential_fold {α : Type} (op : α → α → α)
    (hassoc : ∀ a b c, op (op a b) c = op a (op b c)) (hcomm : ∀ a b, op a b = op b a)
    (g : Garbage α) (block_size max_blocks : Nat) (hbs : 1 ≤ block_size)
    (hmb : 1 ≤ max_blocks) (first : List α) (n : Nat) (hn : n ≤ first.length) (init : α)
    (hwrap1 : n + block_size * num_blocks n block_size max_blocks ≤ 2 ^ 32)
    (hwrap2 : num_blocks n block_size max_blocks + 1 + block_size ≤ 2 ^ 32) :
    (reduce_n32 op g block_size max_blocks first n init).map Prod.fst =
      some ((first.take n).foldl op init) := by
  haveI : Std.Associative op := ⟨hassoc⟩
  haveI : Std.Commutative op := ⟨hcomm⟩
  obtain ⟨log, h⟩ := reduce_n_spec op g block_size max_blocks first n init hn hbs hmb
  rw [reduce_n32_eq op g block_size max_blocks first n init hbs hmb hwrap1 hwrap2, h]
  rfl

/-- Witness for C1 amended: integer addition over `[1,2,3,4,5]` with seed 0
gives 15 and over `[42]` with seed 0 gives 42. -/
theorem reduce_n32_eq_sequential_fold_witness :
    (reduce_n32 (fun a b : Nat => a + b) ⟨fun _ _ => 7, fun _ _ => 9, fun _ => 11⟩ 2 3
        [1, 2, 3, 4, 5] 5 0).map Prod.fst = some 15 ∧
    (reduce_n32 (fun a b : Nat => a + b) ⟨fun _ _ => 7, fun _ _ => 9, fun _ => 11⟩ 4 1
        [42] 1 0).map Prod.fst = some 42 :=
  ⟨reduce_n32_eq_sequential_fold _ Nat.add_assoc Nat.add_comm _ 2 3 (by decide) (by decide)
      [1, 2, 3, 4, 5] 5 (by decide) 0 (by decide) (by decide),
   reduce_n32_eq_sequential_fold _ Nat.add_assoc Nat.add_comm _ 4 1 (by decide) (by decide)
      [42] 1 (by decide) 0 (by decide) (by decide)⟩

/-- C3 as stated fails: with `n = 10`, `block_size = 1` and
`num_blocks = 2^32 - 4`, the thread of block 5 reads index 5, its 32-bit index
wraps to 1 and it reads index 1, which the thread of block 1 reads as well. -/
theorem thread_indices32_wrap_revisits :
    thread_indices32 10 1 4294967292 5 0 = some [5, 1] ∧
      thread_indices32 10 1 4294967292 1 0 = some [1] := by
  decide

/-- C3 amended: for `block_size >= 1`, `num_blocks >= 1` and
`n + block_size * num_blocks <= 2^32`, every thread of the grid finishes its
walk over the indices; thread `t` of block `b` visits exactly the indices
`block_size * b + t + j * (block_size * num_blocks)` that are below `n`; no
thread visits an index `>= n`; and every index below `n` is visited by exactly
one thread of the grid, exactly once. -/
theorem thread_indices32_partition (n block_size num_blocks : Nat) (hbs : 1 ≤ block_size)
    (hnb : 1 ≤ num_blocks) (hwrap : n + block_size * num_blocks ≤ 2 ^ 32) :
    ∃ visits : Nat → Nat → List Nat,
      (∀ b t, b < num_blocks → t < block_size →
        thread_indices32 n block_size num_blocks b t = some (visits b t)) ∧
      (∀ b t i, i ∈ visits b t ↔
        i < n ∧ ∃ j, i = block_size * b + t + j * (block_size * num_blocks)) ∧
      (∀ b t i, i ∈ visits b t → i < n) ∧
      (∀ i, i < n → ∃ b t, b < num_blocks ∧ t < block_size ∧ (visits b t).count i = 1 ∧
        ∀ b2 t2, b2 < num_blocks → t2 < block_size → i ∈ visits b2 t2 → b2 = b ∧ t2 = t) := by
  obtain ⟨visits, hv, hchar, hlt, hpart⟩ := exact_walk_partition n block_size num_blocks hbs hnb
  refine ⟨visits, ?_, hchar, hlt, hpart⟩
  intro b t hb ht
  rw [thread_indices32_eq n block_size num_blocks b t hwrap hb ht]
  exact hv b t

/-- Witness for C3 amended: eleven elements, blocks of three threads, two
blocks. -/
theorem thread_indices32_partition_witness :
    ∃ visits : Nat → Nat → List Nat,
      (∀ b t, b < 2 → t < 3 → thread_indices32 11 3 2 b t = some (visits b t)) ∧
      (∀ b t i, i ∈ visits b t ↔ i < 11 ∧ ∃ j, i = 3 * b + t + j * (3 * 2)) ∧
      (∀ b t i, i ∈ visits b t → i < 11) ∧
      (∀ i, i < 11 → ∃ b t, b < 2 ∧ t < 3 ∧ (visits b t).count i = 1 ∧
        ∀ b2 t2, b2 < 2 → t2 < 3 → i ∈ visits b2 t2 → b2 = b ∧ t2 = t) :=
  thread_indices32_partition 11 3 2 (by decide) (by decide) (by decide)

/-- C7 as stated fails: for an input of `2^32 + 3` ones, addition,
`block_size = 2` and `max_blocks = 2`, the kernel receives `n = 3`, the buffer
after pass 1 is `[0, 2, 1]`, and slot 1 holds 2, whereas the combination of the
elements at the indices `i < n` with `(i / 2) mod 2 = 0` is at least 3 (the
indices 0, 1 and 4 are among them). -/
theorem pass1_32_truncates_length :
    pass1_32 (fun a b : Nat => a + b) ⟨fun _ _ => 7, fun _ _ => 9, fun _ => 11⟩ 2 2
        (List.replicate 4294967299 1) 4294967299 0 = some [0, 2, 1] ∧
    ([0, 2, 1] : List Nat)[0 + 1]? ≠ combine (fun a b : Nat => a + b)
      (((List.range 4294967299).filter fun i =>
          (i / 2) % num_blocks 4294967299 2 2 = 0).filterMap
        fun i => (List.replicate 4294967299 1)[i]?) := by
  constructor
  · exact (pass1_32_of_take (fun a b : Nat => a + b) ⟨fun _ _ => 7, fun _ _ => 9, fun _ => 11⟩
      2 2 (List.replicate 4294967299 1) [1, 1, 1] 4294967299 0
      (take_three_ones 4294967299 (by decide))).trans (by decide)
  · obtain ⟨v, hv, hge⟩ := combine_block_zero_ge (List.replicate 4294967299 1) 4294967299
      (num_blocks 4294967299 2 2) (by decide) (by decide)
      (List.getElem?_replicate_of_lt (by decide)) (List.getElem?_replicate_of_lt (by decide))
      (List.getElem?_replicate_of_lt (by decide))
    intro hc
    have h2 : some 2 = some v := hc.trans hv
    have h3 : 2 = v := Option.some.inj h2
    omega

/-- C7 amended: for an associative and commutative operator, `n >= 1` input
elements, a launch configuration with `block_size >= 1` and `max_blocks >= 1`
and `n + block_size * num_blocks <= 2^32`, the buffer after pass 1 has
`num_blocks + 1` slots and, for every block `b`, slot `b + 1` holds the
combination of exactly the input elements at the indices `i < n` with
`(i / block_size) mod num_blocks = b`; block `b` stores to slot `b + 1`,
distinct blocks store to distinct slots, and every slot `1..num_blocks` is
stored to by exactly one block. -/
theorem pass1_32_block_slots {α : Type} (op : α → α → α)
    (hassoc : ∀ a b c, op (op a b) c = op a (op b c)) (hcomm : ∀ a b, op a b = op b a)
    (g : Garbage α) (block_size max_blocks : Nat) (first : List α) (n : Nat) (init : α)
    (hn1 : 1 ≤ n) (hn : n ≤ first.length) (hbs : 1 ≤ block_size) (hmb : 1 ≤ max_blocks)
    (hwrap : n + block_size * num_blocks n block_size max_blocks ≤ 2 ^ 32) :
    1 ≤ num_blocks n block_size max_blocks ∧
    ∃ temp, pass1_32 op g block_size max_blocks first n init = some temp ∧
      temp.length = num_blocks n block_size max_blocks + 1 ∧
      (∀ b, b < num_blocks n block_size max_blocks →
        temp[b + 1]? ≠ none ∧
        temp[b + 1]? = combine op
          (((List.range n).filter fun i =>
              (i / block_size) % num_blocks n block_size max_blocks = b).filterMap
            fun i => first[i]?)) ∧
      (∀ b, result_slot 1 b = b + 1) ∧
      (∀ b b2, result_slot 1 b = result_slot 1 b2 → b = b2) ∧
      (∀ s, 1 ≤ s → s ≤ num_blocks n block_size max_blocks →
        ∃ b, b < num_blocks n block_size max_blocks ∧ result_slot 1 b = s ∧
          ∀ b2, result_slot 1 b2 = s → b2 = b) := by
  rw [pass1_32_eq op g block_size max_blocks first n init hn1 hbs hmb hwrap]
  exact pass1_exact_block_slots op hassoc hcomm g block_size max_blocks first n init hn1 hn
    hbs hmb

/-- Witness for C7 amended: five elements, blocks of two threads, at most two
blocks. -/
theorem pass1_32_block_slots_witness :
    1 ≤ num_blocks 5 2 2 ∧
    ∃ temp, pass1_32 (fun a b : Nat => a + b) ⟨fun _ _ => 7, fun _ _ => 9, fun _ => 11⟩ 2 2
        [1, 2, 3, 4, 5] 5 0 = some temp ∧
      temp.length = num_blocks 5 2 2 + 1 ∧
      (∀ b, b < num_blocks 5 2 2 →
        temp[b + 1]? ≠ none ∧
        temp[b + 1]? = combine (fun a b : Nat => a + b)
          (((List.range 5).filter fun i => (i / 2) % num_blocks 5 2 2 = b).filterMap
            fun i => [1, 2, 3, 4, 5][i]?)) ∧
      (∀ b, result_slot 1 b = b + 1) ∧
      (∀ b b2, result_slot 1 b = result_slot 1 b2 → b = b2) ∧
      (∀ s, 1 ≤ s → s ≤ num_blocks 5 2 2 →
        ∃ b, b < num_blocks 5 2 2 ∧ result_slot 1 b = s ∧
          ∀ b2, result_slot 1 b2 = s → b2 = b) :=
  pass1_32_block_slots _ Nat.add_assoc Nat.add_comm _ 2 2 [1, 2, 3, 4, 5] 5 0
    (by decide) (by decide) (by decide) (by decide) (by decide)

/-- C8 as stated fails: for an input of `2^32 + 3` ones, addition and seed 0,
the configuration (`block_size = 2`, `max_blocks = 2`) returns 3 and the
configuration (`block_size = 2`, `max_blocks = 4`) returns 31: the kernel
receives `n = 3`, blocks 2 and 3 start past it, the subtraction of line 92
wraps and the indeterminate sums of their threads (7 each) are added. -/
theorem reduce_n32_configs_differ :
    (reduce_n32 (fun a b : Nat => a + b) ⟨fun _ _ => 7, fun _ _ => 9, fun _ => 11⟩ 2 2
        (List.replicate 4294967299 1) 4294967299 0).map Prod.fst = some 3 ∧
    (reduce_n32 (fun a b : Nat => a + b) ⟨fun _ _ => 7, fun _ _ => 9, fun _ => 11⟩ 2 4
        (List.replicate 4294967299 1) 4294967299 0).map Prod.fst = some 31 := by
  constructor
  · have h := reduce_n32_of_take (fun a b : Nat => a + b)
      ⟨fun _ _ => 7, fun _ _ => 9, fun _ => 11⟩ 2 2 (List.replicate 4294967299 1) [1, 1, 1]
      4294967299 0 (take_three_ones 4294967299 (by decide))
    exact (congrArg (Option.map Prod.fst) h).trans (by decide)
  · have h := reduce_n32_of_take (fun a b : Nat => a + b)
      ⟨fun _ _ => 7, fun _ _ => 9, fun _ => 11⟩ 2 4 (List.replicate 4294967299 1) [1, 1, 1]
      4294967299 0 (take_three_ones 4294967299 (by decide))
    exact (congrArg (Option.map Prod.fst) h).trans (by decide)

/-- C8 amended: for an associative and commutative operator and any two launch
configurations whose four parameters are all `>= 1` and under which neither
launch wraps its 32-bit index (`n + block_size * num_blocks <= 2^32` and
`num_blocks + 1 + block_size <= 2^32` for each), whatever the indeterminate
memory contents of the two runs, `reduce_n` returns a value under both and the
two values are the same. -/
theorem reduce_n32_config_independent {α : Type} (op : α → α → α)
    (hassoc : ∀ a b c, op (op a b) c = op a (op b c)) (hcomm : ∀ a b, op a b = op b a)
    (g1 g2 : Garbage α) (block_size1 max_blocks1 block_size2 max_blocks2 : Nat)
    (hbs1 : 1 ≤ block_size1) (hmb1 : 1 ≤ max_blocks1) (hbs2 : 1 ≤ block_size2)
    (hmb2 : 1 ≤ max_blocks2) (first : List α) (n : Nat) (hn : n ≤ first.length) (init : α)
    (hwrap1 : n + block_size1 * num_blocks n block_size1 max_blocks1 ≤ 2 ^ 32)
    (hwrap2 : num_blocks n block_size1 max_blocks1 + 1 + block_size1 ≤ 2 ^ 32)
    (hwrap3 : n + block_size2 * num_blocks n block_size2 max_blocks2 ≤ 2 ^ 32)
    (hwrap4 : num_blocks n block_size2 max_blocks2 + 1 + block_size2 ≤ 2 ^ 32) :
    ∃ v, (reduce_n32 op g1 block_size1 max_blocks1 first n init).map Prod.fst = some v ∧
      (reduce_n32 op g2 block_size2 max_blocks2 first n init).map Prod.fst = some v := by
  haveI : Std.Associative op := ⟨hassoc⟩
  haveI : Std.Commutative op := ⟨hcomm⟩
  obtain ⟨log1, h1⟩ := reduce_n_spec op g1 block_size1 max_blocks1 first n init hn hbs1 hmb1
  obtain ⟨log2, h2⟩ := reduce_n_spec op g2 block_size2 max_blocks2 first n init hn hbs2 hmb2
  refine ⟨(first.take n).foldl op init, ?_, ?_⟩
  · rw [reduce_n32_eq op g1 block_size1 max_blocks1 first n init hbs1 hmb1 hwrap1 hwrap2, h1]
    rfl
  · rw [reduce_n32_eq op g2 block_size2 max_blocks2 first n init hbs2 hmb2 hwrap3 hwrap4, h2]
    rfl

/-- Witness for C8 amended: multiplication modulo 7 over six elements, once
with a single block of eight threads and once with three blocks of two
threads. -/
theorem reduce_n32_config_independent_witness :
    ∃ v, (reduce_n32 (fun a b : Nat => a * b % 7) ⟨fun _ _ => 7, fun _ _ => 9, fun _ => 11⟩
          8 1 [1, 2, 3, 4, 5, 6] 6 1).map Prod.fst = some v ∧
      (reduce_n32 (fun a b : Nat => a * b % 7) ⟨fun _ _ => 0, fun _ _ => 1, fun _ => 2⟩ 2 3
          [1, 2, 3, 4, 5, 6] 6 1).map Prod.fst = some v :=
  reduce_n32_config_independent _
    (fun a b c => by
      show a * b % 7 * c % 7 = a * (b * c % 7) % 7
      rw [Nat.mod_mul_mod, Nat.mul_mod_mod, Nat.mul_assoc])
    (fun a b => by
      show a * b % 7 = b * a % 7
      rw [Nat.mul_comm])
    _ _ 8 1 2 3 (by decide) (by decide) (by decide) (by decide) [1, 2, 3, 4, 5, 6] 6
    (by decide) 1 (by decide) (by decide) (by decide) (by decide)

/-- C14 as stated fails: with `n = 2^32 + 3`, `block_size = 2` and
`max_blocks = 4` four blocks are launched and the kernel receives `n = 3`;
for the launched block 2 the product `block_size * 2 = 4` exceeds it, so the
unsigned subtraction of line 92 underflows, and neither thread of the block
starts below `n`. -/
theorem launched_block_past_truncated_n :
    2 < num_blocks 4294967299 2 4 ∧
      ¬ (2 * 2) % uint_modulus ≤ 4294967299 % uint_modulus ∧
      ¬ thread_start32 2 2 0 < 4294967299 % uint_modulus ∧
      ¬ thread_start32 2 2 1 < 4294967299 % uint_modulus := by
  decide

/-- C14 amended: for `n >= 1`, `block_size >= 1` and `max_blocks >= 1` with
`n < 2^32` and `num_blocks + 1 < 2^32` (so that the kernel receives both
lengths unchanged), pass 1 launches at least one block and every launched
block `b` satisfies `block_size * b < n`, so that the unsigned subtraction of
line 92 does not underflow, thread 0 of the block starts below `n` and the
active count is at least 1; the same holds for the single block of pass 2,
whose `n` is `num_blocks + 1`. -/
theorem launched_blocks32_own_elements (n block_size max_blocks : Nat) (hn : 1 ≤ n)
    (hbs : 1 ≤ block_size) (hmb : 1 ≤ max_blocks) (hfit1 : n < 2 ^ 32)
    (hfit2 : num_blocks n block_size max_blocks + 1 < 2 ^ 32) :
    1 ≤ num_blocks n block_size max_blocks ∧
    (∀ b, b < num_blocks n block_size max_blocks →
      block_size * b < n ∧
      (block_size * b) % uint_modulus ≤ n % uint_modulus ∧
      thread_start32 block_size b 0 < n % uint_modulus ∧
      1 ≤ active_count32 (n % uint_modulus) block_size b) ∧
    (∀ b, b < 1 →
      block_size * b < num_blocks n block_size max_blocks + 1 ∧
      (block_size * b) % uint_modulus ≤
        (num_blocks n block_size max_blocks + 1) % uint_modulus ∧
      thread_start32 block_size b 0 <
        (num_blocks n block_size max_blocks + 1) % uint_modulus ∧
      1 ≤ active_count32 ((num_blocks n block_size max_blocks + 1) % uint_modulus)
        block_size b) := by
  have hM : uint_modulus = 2 ^ 32 := rfl
  have key : ∀ m b, m < uint_modulus → block_size * b < m →
      block_size * b < m ∧ (block_size * b) % uint_modulus ≤ m % uint_modulus ∧
      thread_start32 block_size b 0 < m % uint_modulus ∧
      1 ≤ active_count32 (m % uint_modulus) block_size b := by
    intro m b hm h
    have h1 : m % uint_modulus = m := Nat.mod_eq_of_lt hm
    have h2 : (block_size * b) % uint_modulus = block_size * b := Nat.mod_eq_of_lt (by omega)
    refine ⟨h, by omega, ?_, ?_⟩
    · simp only [thread_start32, Nat.add_zero, h1, h2]; exact h
    · rw [h1, active_count32_eq m block_size b (by omega) hm]
      exact active_count_pos m block_size b hbs h
  refine ⟨num_blocks_pos n block_size max_blocks hn hbs hmb, ?_, ?_⟩
  · intro b hb
    exact key n b (by omega) (num_blocks_start n block_size max_blocks hbs b hb)
  · intro b hb
    have hb0 : b = 0 := by omega
    subst hb0
    exact key _ 0 (by omega) (by omega)

/-- Witness for C14 amended: eleven elements, blocks of three threads, limit
of seven. -/
theorem launched_blocks32_own_elements_witness :
    1 ≤ num_blocks 11 3 7 ∧
    (∀ b, b < num_blocks 11 3 7 →
      3 * b < 11 ∧
      (3 * b) % uint_modulus ≤ 11 % uint_modulus ∧
      thread_start32 3 b 0 < 11 % uint_modulus ∧
      1 ≤ active_count32 (11 % uint_modulus) 3 b) ∧
    (∀ b, b < 1 →
      3 * b < num_blocks 11 3 7 + 1 ∧
      (3 * b) % uint_modulus ≤ (num_blocks 11 3 7 + 1) % uint_modulus ∧
      thread_start32 3 b 0 < (num_blocks 11 3 7 + 1) % uint_modulus ∧
      1 ≤ active_count32 ((num_blocks 11 3 7 + 1) % uint_modulus) 3 b) :=
  launched_blocks32_own_elements 11 3 7 (by decide) (by decide) (by decide) (by decide)
    (by decide)

/-- C16 as stated fails: with `block_size = num_blocks = 65536` the 32-bit
`grid_size` is 0, and for `n = 5` the walk of thread 0 of block 0 stays at
index 0: it does not end within its fuel, nor within any other. -/
theorem thread_loop32_zero_stride :
    thread_indices32 5 65536 65536 0 0 = none ∧
      ¬ ∃ fuel seen l,
        visit_loop32 5 ((65536 * 65536) % uint_modulus) fuel 0 seen = some l := by
  refine ⟨by decide, ?_⟩
  rintro ⟨fuel, seen, l, h⟩
  rw [show (65536 * 65536) % uint_modulus = 0 from by decide,
    visit_loop32_stuck 5 0 (by decide) (by decide) fuel seen] at h
  cases h

/-- C16 amended: for `block_size >= 1`, `num_blocks >= 1` and
`n + block_size * num_blocks <= 2^32` the index walk of every thread of the
grid ends, after at most `ceil(n / (block_size * num_blocks))` element reads
by that thread, and so does its accumulation loop over any input of at least
`n` elements, for any operator. -/
theorem thread_loop32_terminates (n block_size num_blocks : Nat) (hbs : 1 ≤ block_size)
    (hnb : 1 ≤ num_blocks) (hwrap : n + block_size * num_blocks ≤ 2 ^ 32) :
    ∀ b t, b < num_blocks → t < block_size →
      ∃ l, thread_indices32 n block_size num_blocks b t = some l ∧
        l.length ≤ ⌈(n : ℚ) / ((block_size * num_blocks : Nat) : ℚ)⌉₊ ∧
        ∀ (α : Type) (op : α → α → α) (input : List α) (u : α), n ≤ input.length →
          ∃ v, thread_sum32 op input n block_size num_blocks b t u = some v := by
  intro b t hb ht
  obtain ⟨l, hl, -, -⟩ := thread_indices_spec n block_size num_blocks b t hbs hnb
  refine ⟨l, ?_, ?_, ?_⟩
  · rw [thread_indices32_eq n block_size num_blocks b t hwrap hb ht, hl]
  · rw [ceil_div_eq n (block_size * num_blocks) (Nat.mul_pos hbs hnb)]
    exact thread_indices_length n block_size num_blocks b t hbs hnb l hl
  · intro α op input u hn
    rw [thread_sum32_eq op input n block_size num_blocks b t u hwrap hb ht]
    exact thread_sum_some op input n block_size num_blocks b t u hn hbs hnb

/-- Witness for C16 amended: thread 1 of block 1 of two blocks of three
threads over eleven elements. -/
theorem thread_loop32_terminates_witness :
    ∃ l, thread_indices32 11 3 2 1 1 = some l ∧
      l.length ≤ ⌈((11 : Nat) : ℚ) / ((3 * 2 : Nat) : ℚ)⌉₊ ∧
      ∀ (α : Type) (op : α → α → α) (input : List α) (u : α), 11 ≤ input.length →
        ∃ v, thread_sum32 op input 11 3 2 1 1 u = some v :=
  thread_loop32_terminates 11 3 2 (by decide) (by decide) (by decide) 1 1 (by decide)
    (by decide)

end Thrust
